import Mathlib

/-!
Shallow embedding of the `listslistslists` doubly-linked-list library
(`src/lib.rs`, with the sibling variants `src/arena.rs` and
`src/static_rc.rs` for the cursor constructors).

The Rust code stores nodes in a `typed_arena::Arena` and links them with
`StaticRcRef` half-pointers.  We model the arena as a `List` of nodes and a
pointer as the node's index; allocation appends at the end, so addresses are
stable.  A `Node` holds `value : Option T`, `left` and `right` link slots,
exactly as in the source.  Operations that can panic in Rust
(`Option::unwrap`, `expect`, `StaticRcRef::join` on mismatched halves) are
modelled as `Option`-returning functions where `none` is a panic.
-/

namespace Lists

structure Node (T : Type) where
  value : Option T
  left : Option Nat
  right : Option Nat
deriving DecidableEq, Repr

/-- The backing `typed_arena::Arena<Node<T>>`: allocation appends a slot. -/
abbrev Arena (T : Type) := List (Node T)

/-- `LinkedList { head_tail: Option<(HalfNodePtr, HalfNodePtr)> }`. -/
structure LinkedList where
  head_tail : Option (Nat × Nat)
deriving DecidableEq, Repr

variable {T : Type}

/-- Read `node.value` through the token (`borrow(token).value`). -/
def valueOf (a : Arena T) (i : Nat) : Option T := (a[i]?).bind Node.value

/-- Read `node.left` through the token. -/
def leftOf (a : Arena T) (i : Nat) : Option Nat := (a[i]?).bind Node.left

/-- Read `node.right` through the token. -/
def rightOf (a : Arena T) (i : Nat) : Option Nat := (a[i]?).bind Node.right

/-- Mutate the node stored at address `i` (no-op on a dangling address,
which never occurs on reachable states). -/
def modifyNode (a : Arena T) (i : Nat) (f : Node T → Node T) : Arena T :=
  match a[i]? with
  | some nd => a.set i (f nd)
  | none => a

/-- `node.borrow_mut(token).left = l` / `.left.take()`. -/
def setLeft (a : Arena T) (i : Nat) (l : Option Nat) : Arena T :=
  modifyNode a i fun nd => { nd with left := l }

/-- `node.borrow_mut(token).right = r` / `.right.take()`. -/
def setRight (a : Arena T) (i : Nat) (r : Option Nat) : Arena T :=
  modifyNode a i fun nd => { nd with right := r }

/-- `LinkedList::new_halves`: `arena.alloc(Node { value: Some(value), left:
None, right: None })` followed by `StaticRcRef::split`, which hands back two
half-pointers to the same fresh node.  We return the fresh address once. -/
def new_halves (a : Arena T) (value : T) : Arena T × Nat :=
  (a ++ [⟨some value, none, none⟩], a.length)

/-- `LinkedList::into_inner(left, right)`: `FullNodePtr::join(left, right)`
(panics unless both halves address the same node), then
`node.value.take().unwrap()` (panics if the value slot is empty).
`none` models the panic. -/
def into_inner (left right : Nat) (a : Arena T) : Option (T × Arena T) :=
  if left = right then
    match a[left]? with
    | some nd => nd.value.map fun v => (v, a.set left { nd with value := none })
    | none => none
  else none

/-- `LinkedList::push_front`. -/
def push_front (self : LinkedList) (value : T) (a : Arena T) :
    LinkedList × Arena T :=
  let p := new_halves a value
  let a := p.1
  let n := p.2
  match self.head_tail with
  | some (head, tail) =>
    let a := setLeft a head (some n)
    let a := setRight a n (some head)
    (⟨some (n, tail)⟩, a)
  | none => (⟨some (n, n)⟩, a)

/-- `LinkedList::push_back`. -/
def push_back (self : LinkedList) (value : T) (a : Arena T) :
    LinkedList × Arena T :=
  let p := new_halves a value
  let a := p.1
  let n := p.2
  match self.head_tail with
  | some (head, tail) =>
    let a := setRight a tail (some n)
    let a := setLeft a n (some tail)
    (⟨some (head, n)⟩, a)
  | none => (⟨some (n, n)⟩, a)

/-- `LinkedList::pop_front`.  Result `some (v?, self', a')`; outer `none` is
a panic of one of the two `unwrap`s or of the `join` inside `into_inner`. -/
def pop_front (self : LinkedList) (a : Arena T) :
    Option (Option T × LinkedList × Arena T) :=
  match self.head_tail with
  | none => some (none, ⟨none⟩, a)
  | some (head, tail) =>
    if head = tail then
      (into_inner head tail a).map fun p => (some p.1, ⟨none⟩, p.2)
    else
      match rightOf a head with
      | none => none
      | some next =>
        let a := setRight a head none
        match leftOf a next with
        | none => none
        | some other_head =>
          let a := setLeft a next none
          (into_inner head other_head a).map fun p =>
            (some p.1, ⟨some (next, tail)⟩, p.2)

/-- `LinkedList::pop_back`. -/
def pop_back (self : LinkedList) (a : Arena T) :
    Option (Option T × LinkedList × Arena T) :=
  match self.head_tail with
  | none => some (none, ⟨none⟩, a)
  | some (head, tail) =>
    if head = tail then
      (into_inner head tail a).map fun p => (some p.1, ⟨none⟩, p.2)
    else
      match leftOf a tail with
      | none => none
      | some prev =>
        let a := setLeft a tail none
        match rightOf a prev with
        | none => none
        | some other_tail =>
          let a := setRight a prev none
          (into_inner tail other_tail a).map fun p =>
            (some p.1, ⟨some (head, prev)⟩, p.2)

/-- `LinkedList::append`.  Returns `(self', other', a')`; `none` models the
`expect` failing while the `GhostCursor` re-reads `mid_tail.right` (set just
before) to reach `mid_head` and install its `left` link. -/
def append (self other : LinkedList) (a : Arena T) :
    Option (LinkedList × LinkedList × Arena T) :=
  match other.head_tail with
  | none => some (self, other, a)
  | some (mid_head, tail) =>
    match self.head_tail with
    | none => some (⟨some (mid_head, tail)⟩, ⟨none⟩, a)
    | some (head, mid_tail) =>
      let a := setRight a mid_tail (some mid_head)
      match rightOf a mid_tail with
      | none => none
      | some mh =>
        let a := setLeft a mh (some mid_tail)
        some (⟨some (head, tail)⟩, ⟨none⟩, a)

/-- `LinkedList::prepend`: `other.append(self, token)` then
`core::mem::swap(self, other)`.  After the swap the value held by `self` is
the one `append` produced for `other` and vice versa, so the components come
back in `(self', other', a')` order already. -/
def prepend (self other : LinkedList) (a : Arena T) :
    Option (LinkedList × LinkedList × Arena T) :=
  match append other self a with
  | none => none
  | some (o, s, a) => some (o, s, a)

/-- The `for _ in 0..at` loop of `LinkedList::split_off`, with the trailing
`core::mem::swap(self, &mut head); Some(head)` at loop exit and the
restoration `self.prepend(&mut head); return None` when `pop_front` comes up
empty.  Result `some (returned?, self', a')`. -/
def split_off_loop (self head : LinkedList) (fuel : Nat) (a : Arena T) :
    Option (Option LinkedList × LinkedList × Arena T) :=
  match fuel with
  | 0 => some (some self, head, a)
  | fuel + 1 =>
    match pop_front self a with
    | none => none
    | some (none, self, a) =>
      (prepend self head a).map fun r => (none, r.1, r.2.2)
    | some (some element, self, a) =>
      let p := push_back head element a
      split_off_loop self p.1 fuel p.2

/-- `LinkedList::split_off(at)`. -/
def split_off (self : LinkedList) (at_ : Nat) (a : Arena T) :
    Option (Option LinkedList × LinkedList × Arena T) :=
  split_off_loop self ⟨none⟩ at_ a

/-- Read `Cursor { token, node: Option<&GhostNode> }`. -/
structure Cursor where
  node : Option Nat
deriving DecidableEq, Repr

/-- `Cursor::new_front`. -/
def Cursor.new_front (list : LinkedList) : Cursor :=
  ⟨list.head_tail.map Prod.fst⟩

/-- `Cursor::new_back`. -/
def Cursor.new_back (list : LinkedList) : Cursor :=
  ⟨list.head_tail.map Prod.snd⟩

/-- `Cursor::peek_right_node`. -/
def Cursor.peek_right_node (c : Cursor) (a : Arena T) : Option Nat :=
  c.node.bind fun i => rightOf a i

/-- `Cursor::peek_left_node`. -/
def Cursor.peek_left_node (c : Cursor) (a : Arena T) : Option Nat :=
  c.node.bind fun i => leftOf a i

/-- `Cursor::move_right`: returns the updated cursor and the `bool`. -/
def Cursor.move_right (c : Cursor) (a : Arena T) : Cursor × Bool :=
  match c.peek_right_node a with
  | some node => (⟨some node⟩, true)
  | none => (⟨none⟩, false)

/-- `Cursor::move_left`. -/
def Cursor.move_left (c : Cursor) (a : Arena T) : Cursor × Bool :=
  match c.peek_left_node a with
  | some node => (⟨some node⟩, true)
  | none => (⟨none⟩, false)

/-- `Cursor::current`. -/
def Cursor.current (c : Cursor) (a : Arena T) : Option T :=
  c.node.bind fun i => valueOf a i

/-- `Cursor::peek_right`. -/
def Cursor.peek_right (c : Cursor) (a : Arena T) : Option T :=
  (c.peek_right_node a).bind fun i => valueOf a i

/-- `Cursor::peek_left`. -/
def Cursor.peek_left (c : Cursor) (a : Arena T) : Option T :=
  (c.peek_left_node a).bind fun i => valueOf a i

/-- One `Iter::next`: yield `current()`, then `move_right()`.  Unfolded into
the list of yielded items, with fuel (the Rust iterator walks a finite
acyclic chain; on reachable states `a.length + 1` steps always suffice). -/
def iterGo (a : Arena T) (node : Option Nat) (fuel : Nat) : List T :=
  match fuel with
  | 0 => []
  | fuel + 1 =>
    match node with
    | none => []
    | some i =>
      match valueOf a i with
      | none => []
      | some v => v :: iterGo a (rightOf a i) fuel

/-- `LinkedList::iter` collected: items yielded by the forward iterator
(a `Cursor::new_front` wrapped with yield-then-`move_right`). -/
def iterList (self : LinkedList) (a : Arena T) : List T :=
  iterGo a (Cursor.new_front self).node (a.length + 1)

/-- Backward traversal: start at `Cursor::new_back` and repeatedly yield
`current()` then `move_left()`, the mirror of `iterList`. -/
def iterBwdGo (a : Arena T) (node : Option Nat) (fuel : Nat) : List T :=
  match fuel with
  | 0 => []
  | fuel + 1 =>
    match node with
    | none => []
    | some i =>
      match valueOf a i with
      | none => []
      | some v => v :: iterBwdGo a (leftOf a i) fuel

/-- Items seen when traversing backward from `Cursor::new_back`. -/
def iterBwdList (self : LinkedList) (a : Arena T) : List T :=
  iterBwdGo a (Cursor.new_back self).node (a.length + 1)

/-- `LinkedList::len`: `self.iter(token).count()`. -/
def len (self : LinkedList) (a : Arena T) : Nat :=
  (iterList self a).length

/-- Nodes reached by repeatedly following one link function (`next` from the
head, or `prev` from the tail). -/
def travNodes (f : Nat → Option Nat) (node : Option Nat) (fuel : Nat) :
    List Nat :=
  match fuel with
  | 0 => []
  | fuel + 1 =>
    match node with
    | none => []
    | some i => i :: travNodes f (f i) fuel

/-- Node addresses reached from the head by following `right`. -/
def fwdNodes (self : LinkedList) (a : Arena T) : List Nat :=
  travNodes (rightOf a) (self.head_tail.map Prod.fst) (a.length + 1)

/-- Node addresses reached from the tail by following `left`. -/
def bwdNodes (self : LinkedList) (a : Arena T) : List Nat :=
  travNodes (leftOf a) (self.head_tail.map Prod.snd) (a.length + 1)

/-! ## The chain invariant

`ListRepr a self is vs` says that `self` is a well-formed doubly-linked list
in arena `a` whose nodes sit at addresses `is` (in forward order) and hold
values `vs`: `head_tail` is the boundary pair of `is`, each address is live,
consecutive nodes point at each other, the boundary links are absent, and
every value slot is present. -/

/-- Adjacent nodes point at each other. -/
abbrev chainRel (a : Arena T) (i j : Nat) : Prop :=
  rightOf a i = some j ∧ leftOf a j = some i

structure ListRepr (a : Arena T) (ls : LinkedList) (is : List Nat)
    (vs : List T) : Prop where
  ht : ls.head_tail = is.head?.bind fun h => is.getLast?.map fun t => (h, t)
  bounded : ∀ i ∈ is, i < a.length
  nodup : is.Nodup
  values : is.map (valueOf a) = vs.map some
  chain : List.Chain' (chainRel a) is
  head_left : is.head?.bind (leftOf a) = none
  last_right : is.getLast?.bind (rightOf a) = none

/-- A mutation touching only node addresses in `touched` and fresh slots. -/
def framedOn (a a' : Arena T) (touched : List Nat) : Prop :=
  a.length ≤ a'.length ∧ ∀ j, j < a.length → j ∉ touched → a'[j]? = a[j]?

/-! ### Arena getter / setter lemmas -/

theorem length_modifyNode (a : Arena T) (i : Nat) (f : Node T → Node T) :
    (modifyNode a i f).length = a.length := by
  unfold modifyNode
  cases a[i]? <;> simp

theorem getElem?_modifyNode_ne (a : Arena T) {i j : Nat} (f : Node T → Node T)
    (h : j ≠ i) : (modifyNode a i f)[j]? = a[j]? := by
  unfold modifyNode
  cases a[i]? with
  | none => rfl
  | some nd => exact List.getElem?_set_ne (Ne.symm h)

theorem getElem?_modifyNode_self (a : Arena T) (i : Nat) (f : Node T → Node T) :
    (modifyNode a i f)[i]? = (a[i]?).map f := by
  unfold modifyNode
  cases hai : a[i]? with
  | none => simp [hai]
  | some nd => simp [List.getElem?_set_self', hai]

theorem valueOf_setLeft (a : Arena T) (i j : Nat) (l : Option Nat) :
    valueOf (setLeft a i l) j = valueOf a j := by
  unfold valueOf setLeft
  rcases eq_or_ne j i with rfl | hne
  · rw [getElem?_modifyNode_self]
    cases a[j]? <;> rfl
  · rw [getElem?_modifyNode_ne _ _ hne]

theorem rightOf_setLeft (a : Arena T) (i j : Nat) (l : Option Nat) :
    rightOf (setLeft a i l) j = rightOf a j := by
  unfold rightOf setLeft
  rcases eq_or_ne j i with rfl | hne
  · rw [getElem?_modifyNode_self]
    cases a[j]? <;> rfl
  · rw [getElem?_modifyNode_ne _ _ hne]

theorem leftOf_setLeft_self (a : Arena T) {i : Nat} (l : Option Nat)
    (h : i < a.length) : leftOf (setLeft a i l) i = l := by
  unfold leftOf setLeft
  rw [getElem?_modifyNode_self, List.getElem?_eq_getElem h]
  rfl

theorem leftOf_setLeft_ne (a : Arena T) {i j : Nat} (l : Option Nat)
    (h : j ≠ i) : leftOf (setLeft a i l) j = leftOf a j := by
  unfold leftOf setLeft
  rw [getElem?_modifyNode_ne _ _ h]

theorem valueOf_setRight (a : Arena T) (i j : Nat) (r : Option Nat) :
    valueOf (setRight a i r) j = valueOf a j := by
  unfold valueOf setRight
  rcases eq_or_ne j i with rfl | hne
  · rw [getElem?_modifyNode_self]
    cases a[j]? <;> rfl
  · rw [getElem?_modifyNode_ne _ _ hne]

theorem leftOf_setRight (a : Arena T) (i j : Nat) (r : Option Nat) :
    leftOf (setRight a i r) j = leftOf a j := by
  unfold leftOf setRight
  rcases eq_or_ne j i with rfl | hne
  · rw [getElem?_modifyNode_self]
    cases a[j]? <;> rfl
  · rw [getElem?_modifyNode_ne _ _ hne]

theorem rightOf_setRight_self (a : Arena T) {i : Nat} (r : Option Nat)
    (h : i < a.length) : rightOf (setRight a i r) i = r := by
  unfold rightOf setRight
  rw [getElem?_modifyNode_self, List.getElem?_eq_getElem h]
  rfl

theorem rightOf_setRight_ne (a : Arena T) {i j : Nat} (r : Option Nat)
    (h : j ≠ i) : rightOf (setRight a i r) j = rightOf a j := by
  unfold rightOf setRight
  rw [getElem?_modifyNode_ne _ _ h]

theorem getElem?_setLeft_ne (a : Arena T) {i j : Nat} (l : Option Nat)
    (h : j ≠ i) : (setLeft a i l)[j]? = a[j]? :=
  getElem?_modifyNode_ne a _ h

theorem getElem?_setRight_ne (a : Arena T) {i j : Nat} (r : Option Nat)
    (h : j ≠ i) : (setRight a i r)[j]? = a[j]? :=
  getElem?_modifyNode_ne a _ h

theorem length_setLeft (a : Arena T) (i : Nat) (l : Option Nat) :
    (setLeft a i l).length = a.length := length_modifyNode ..

theorem length_setRight (a : Arena T) (i : Nat) (r : Option Nat) :
    (setRight a i r).length = a.length := length_modifyNode ..

theorem getElem?_alloc_lt {α : Type _} (a : List α) (nd : α) {j : Nat}
    (h : j < a.length) : (a ++ [nd])[j]? = a[j]? := by
  rw [List.getElem?_append_left h]

theorem getElem?_alloc_self {α : Type _} (a : List α) (nd : α) :
    (a ++ [nd])[a.length]? = some nd := by
  rw [List.getElem?_concat_length]

theorem valueOf_congr {a a' : Arena T} {i : Nat} (h : a'[i]? = a[i]?) :
    valueOf a' i = valueOf a i := by
  unfold valueOf
  rw [h]

theorem leftOf_congr {a a' : Arena T} {i : Nat} (h : a'[i]? = a[i]?) :
    leftOf a' i = leftOf a i := by
  unfold leftOf
  rw [h]

theorem rightOf_congr {a a' : Arena T} {i : Nat} (h : a'[i]? = a[i]?) :
    rightOf a' i = rightOf a i := by
  unfold rightOf
  rw [h]

theorem chain'_congr_mem {R S : Nat → Nat → Prop} {l : List Nat}
    (h : ∀ x ∈ l, ∀ y ∈ l, R x y → S x y) (hc : l.Chain' R) : l.Chain' S := by
  induction l with
  | nil => simp
  | cons x t ih =>
    cases t with
    | nil => simp
    | cons y t' =>
      rw [List.chain'_cons] at hc ⊢
      refine ⟨h x (by simp) y (by simp) hc.1, ih ?_ hc.2⟩
      intro p hp q hq
      exact h p (List.mem_cons_of_mem x hp) q (List.mem_cons_of_mem x hq)

theorem getLast?_mem : ∀ {l : List Nat} {x : Nat}, l.getLast? = some x → x ∈ l := by
  intro l
  induction l with
  | nil => intro x hx; cases hx
  | cons i t ih =>
    intro x hx
    cases t with
    | nil =>
      simp only [List.getLast?_singleton, Option.some.injEq] at hx
      simp [hx]
    | cons j t' =>
      rw [List.getLast?_cons_cons] at hx
      exact List.mem_cons_of_mem i (ih hx)

/-- Rebuilding the invariant after a mutation that left every node of the
list untouched. -/
theorem ListRepr.frame {a a' : Arena T} {ls : LinkedList} {is : List Nat}
    {vs : List T} (h : ListRepr a ls is vs) (hlen : a.length ≤ a'.length)
    (hagree : ∀ i ∈ is, a'[i]? = a[i]?) : ListRepr a' ls is vs where
  ht := h.ht
  bounded := fun i hi => lt_of_lt_of_le (h.bounded i hi) hlen
  nodup := h.nodup
  values := by
    rw [← h.values]
    exact List.map_congr_left fun i hi => valueOf_congr (hagree i hi)
  chain := by
    refine chain'_congr_mem ?_ h.chain
    intro x hx y hy hr
    exact ⟨(rightOf_congr (hagree x hx)).trans hr.1,
      (leftOf_congr (hagree y hy)).trans hr.2⟩
  head_left := by
    have hh := h.head_left
    cases his : is with
    | nil => simp
    | cons i t =>
      rw [his] at hh
      simp only [List.head?_cons] at hh ⊢
      have hmem : i ∈ is := by
        rw [his]
        exact List.mem_cons_self i t
      show leftOf a' i = none
      rw [leftOf_congr (hagree i hmem)]
      exact hh
  last_right := by
    have hh := h.last_right
    cases hgl : is.getLast? with
    | none => rfl
    | some t =>
      rw [hgl] at hh
      show rightOf a' t = none
      rw [rightOf_congr (hagree t (getLast?_mem hgl))]
      exact hh

/-! ### Traversal characterisation under the invariant -/

theorem iterGo_succ (a : Arena T) (i : Nat) (fuel : Nat) :
    iterGo a (some i) (fuel + 1) =
      match valueOf a i with
      | none => []
      | some v => v :: iterGo a (rightOf a i) fuel := rfl

theorem iterBwdGo_succ (a : Arena T) (i : Nat) (fuel : Nat) :
    iterBwdGo a (some i) (fuel + 1) =
      match valueOf a i with
      | none => []
      | some v => v :: iterBwdGo a (leftOf a i) fuel := rfl

theorem travNodes_eq (f : Nat → Option Nat) :
    ∀ (is : List Nat) (fuel : Nat),
      List.Chain' (fun i j => f i = some j) is →
      is.getLast?.bind f = none →
      is.length ≤ fuel →
      travNodes f is.head? fuel = is := by
  intro is
  induction is with
  | nil =>
    intro fuel _ _ _
    cases fuel <;> rfl
  | cons i t ih =>
    intro fuel hchain hlast hfuel
    cases fuel with
    | zero => simp at hfuel
    | succ fl =>
      show i :: travNodes f (f i) fl = i :: t
      cases t with
      | nil =>
        have hfi : f i = none := hlast
        rw [hfi]
        cases fl <;> rfl
      | cons j t' =>
        have hcc := List.chain'_cons.mp hchain
        rw [hcc.1]
        have : travNodes f (some j) fl = j :: t' := by
          have hh : (j :: t').head? = some j := rfl
          rw [← hh]
          refine ih fl hcc.2 ?_ (by simpa using hfuel)
          rw [← List.getLast?_cons_cons (a := i)]
          exact hlast
        rw [this]

theorem iterGo_eq (a : Arena T) :
    ∀ (is : List Nat) (vs : List T) (fuel : Nat),
      List.Chain' (chainRel a) is →
      is.getLast?.bind (rightOf a) = none →
      is.map (valueOf a) = vs.map some →
      is.length ≤ fuel →
      iterGo a is.head? fuel = vs := by
  intro is
  induction is with
  | nil =>
    intro vs fuel _ _ hv _
    have : vs = [] := by
      cases vs with
      | nil => rfl
      | cons v vt => simp at hv
    subst this
    cases fuel <;> rfl
  | cons i t ih =>
    intro vs fuel hchain hlast hv hfuel
    cases vs with
    | nil => simp at hv
    | cons v vt =>
      cases fuel with
      | zero => simp at hfuel
      | succ fl =>
        simp only [List.map_cons, List.cons.injEq] at hv
        show iterGo a (some i) (fl + 1) = v :: vt
        rw [iterGo_succ, hv.1]
        show v :: iterGo a (rightOf a i) fl = v :: vt
        cases t with
        | nil =>
          have hfi : rightOf a i = none := hlast
          rw [hfi]
          have : vt = [] := by
            cases vt with
            | nil => rfl
            | cons w wt => simp at hv
          subst this
          cases fl <;> rfl
        | cons j t' =>
          have hcc := List.chain'_cons.mp hchain
          rw [hcc.1.1]
          have : iterGo a (some j) fl = vt := by
            have hh : (j :: t').head? = some j := rfl
            rw [← hh]
            refine ih vt fl hcc.2 ?_ hv.2 (by simpa using hfuel)
            rw [← List.getLast?_cons_cons (a := i)]
            exact hlast
          rw [this]

theorem iterBwdGo_eq (a : Arena T) :
    ∀ (is : List Nat) (vs : List T) (fuel : Nat),
      List.Chain' (fun i j => leftOf a i = some j) is →
      is.getLast?.bind (leftOf a) = none →
      is.map (valueOf a) = vs.map some →
      is.length ≤ fuel →
      iterBwdGo a is.head? fuel = vs := by
  intro is
  induction is with
  | nil =>
    intro vs fuel _ _ hv _
    have : vs = [] := by
      cases vs with
      | nil => rfl
      | cons v vt => simp at hv
    subst this
    cases fuel <;> rfl
  | cons i t ih =>
    intro vs fuel hchain hlast hv hfuel
    cases vs with
    | nil => simp at hv
    | cons v vt =>
      cases fuel with
      | zero => simp at hfuel
      | succ fl =>
        simp only [List.map_cons, List.cons.injEq] at hv
        show iterBwdGo a (some i) (fl + 1) = v :: vt
        rw [iterBwdGo_succ, hv.1]
        show v :: iterBwdGo a (leftOf a i) fl = v :: vt
        cases t with
        | nil =>
          have hfi : leftOf a i = none := hlast
          rw [hfi]
          have : vt = [] := by
            cases vt with
            | nil => rfl
            | cons w wt => simp at hv
          subst this
          cases fl <;> rfl
        | cons j t' =>
          have hcc := List.chain'_cons.mp hchain
          rw [hcc.1]
          have : iterBwdGo a (some j) fl = vt := by
            have hh : (j :: t').head? = some j := rfl
            rw [← hh]
            refine ih vt fl hcc.2 ?_ hv.2 (by simpa using hfuel)
            rw [← List.getLast?_cons_cons (a := i)]
            exact hlast
          rw [this]

theorem ListRepr.length_vals {a : Arena T} {ls : LinkedList} {is : List Nat}
    {vs : List T} (h : ListRepr a ls is vs) : is.length = vs.length := by
  have := congrArg List.length h.values
  simpa using this

theorem ListRepr.length_le {a : Arena T} {ls : LinkedList} {is : List Nat}
    {vs : List T} (h : ListRepr a ls is vs) : is.length ≤ a.length := by
  have hsub : is ⊆ List.range a.length := fun i hi =>
    List.mem_range.mpr (h.bounded i hi)
  have := (List.subperm_of_subset h.nodup hsub).length_le
  simpa using this

theorem ListRepr.front_node {a : Arena T} {ls : LinkedList} {is : List Nat}
    {vs : List T} (h : ListRepr a ls is vs) :
    ls.head_tail.map Prod.fst = is.head? := by
  rw [h.ht]
  cases his : is with
  | nil => rfl
  | cons i t =>
    obtain ⟨t0, hgl⟩ := Option.isSome_iff_exists.mp
      (List.getLast?_isSome.mpr (List.cons_ne_nil i t))
    simp [hgl]

theorem ListRepr.back_node {a : Arena T} {ls : LinkedList} {is : List Nat}
    {vs : List T} (h : ListRepr a ls is vs) :
    ls.head_tail.map Prod.snd = is.getLast? := by
  rw [h.ht]
  cases his : is with
  | nil => rfl
  | cons i t =>
    obtain ⟨t0, hgl⟩ := Option.isSome_iff_exists.mp
      (List.getLast?_isSome.mpr (List.cons_ne_nil i t))
    simp [hgl]

theorem ListRepr.chainR {a : Arena T} {ls : LinkedList} {is : List Nat}
    {vs : List T} (h : ListRepr a ls is vs) :
    List.Chain' (fun i j => rightOf a i = some j) is :=
  h.chain.imp fun _ _ hr => hr.1

theorem ListRepr.chainL_rev {a : Arena T} {ls : LinkedList} {is : List Nat}
    {vs : List T} (h : ListRepr a ls is vs) :
    List.Chain' (fun i j => leftOf a i = some j) is.reverse := by
  rw [List.chain'_reverse]
  exact h.chain.imp fun _ _ hr => hr.2

theorem ListRepr.iterList_eq {a : Arena T} {ls : LinkedList} {is : List Nat}
    {vs : List T} (h : ListRepr a ls is vs) : iterList ls a = vs := by
  unfold iterList
  have hnode : (Cursor.new_front ls).node = is.head? := h.front_node
  rw [hnode]
  exact iterGo_eq a is vs _ h.chain h.last_right h.values
    (Nat.le_succ_of_le h.length_le)

theorem ListRepr.iterBwdList_eq {a : Arena T} {ls : LinkedList} {is : List Nat}
    {vs : List T} (h : ListRepr a ls is vs) : iterBwdList ls a = vs.reverse := by
  unfold iterBwdList
  have hnode : (Cursor.new_back ls).node = is.getLast? := h.back_node
  rw [hnode, ← List.head?_reverse]
  refine iterBwdGo_eq a is.reverse vs.reverse _ h.chainL_rev ?_ ?_ ?_
  · rw [List.getLast?_reverse]
    exact h.head_left
  · rw [List.map_reverse, List.map_reverse, h.values]
  · simpa using Nat.le_succ_of_le h.length_le

theorem ListRepr.fwdNodes_eq {a : Arena T} {ls : LinkedList} {is : List Nat}
    {vs : List T} (h : ListRepr a ls is vs) : fwdNodes ls a = is := by
  unfold fwdNodes
  rw [h.front_node]
  exact travNodes_eq _ is _ h.chainR h.last_right (Nat.le_succ_of_le h.length_le)

theorem ListRepr.bwdNodes_eq {a : Arena T} {ls : LinkedList} {is : List Nat}
    {vs : List T} (h : ListRepr a ls is vs) : bwdNodes ls a = is.reverse := by
  unfold bwdNodes
  rw [h.back_node, ← List.head?_reverse]
  refine travNodes_eq _ is.reverse _ h.chainL_rev ?_ ?_
  · rw [List.getLast?_reverse]
    exact h.head_left
  · simpa using Nat.le_succ_of_le h.length_le

theorem ListRepr.len_eq {a : Arena T} {ls : LinkedList} {is : List Nat}
    {vs : List T} (h : ListRepr a ls is vs) : len ls a = vs.length := by
  unfold len
  rw [h.iterList_eq]

/-! ### Pointwise getters after allocation -/

theorem valueOf_alloc_lt (a : Arena T) (nd : Node T) {j : Nat}
    (h : j < a.length) : valueOf (a ++ [nd]) j = valueOf a j :=
  valueOf_congr (getElem?_alloc_lt a nd h)

theorem leftOf_alloc_lt (a : Arena T) (nd : Node T) {j : Nat}
    (h : j < a.length) : leftOf (a ++ [nd]) j = leftOf a j :=
  leftOf_congr (getElem?_alloc_lt a nd h)

theorem rightOf_alloc_lt (a : Arena T) (nd : Node T) {j : Nat}
    (h : j < a.length) : rightOf (a ++ [nd]) j = rightOf a j :=
  rightOf_congr (getElem?_alloc_lt a nd h)

theorem valueOf_alloc_self (a : Arena T) (nd : Node T) :
    valueOf (a ++ [nd]) a.length = nd.value := by
  unfold valueOf
  rw [getElem?_alloc_self]
  rfl

theorem leftOf_alloc_self (a : Arena T) (nd : Node T) :
    leftOf (a ++ [nd]) a.length = nd.left := by
  unfold leftOf
  rw [getElem?_alloc_self]
  rfl

theorem rightOf_alloc_self (a : Arena T) (nd : Node T) :
    rightOf (a ++ [nd]) a.length = nd.right := by
  unfold rightOf
  rw [getElem?_alloc_self]
  rfl

/-! ### Inversion of the invariant at the boundary pair -/

theorem ListRepr.eq_nil {a : Arena T} {ls : LinkedList} {is : List Nat}
    {vs : List T} (h : ListRepr a ls is vs) (hn : ls.head_tail = none) :
    is = [] ∧ vs = [] := by
  cases his : is with
  | nil =>
    refine ⟨rfl, ?_⟩
    have hv := h.values
    rw [his] at hv
    cases vs with
    | nil => rfl
    | cons _ _ => simp at hv
  | cons i t =>
    exfalso
    obtain ⟨t0, hgl⟩ := Option.isSome_iff_exists.mp
      (List.getLast?_isSome.mpr (List.cons_ne_nil i t))
    have hht := h.ht
    rw [his, hn] at hht
    simp [hgl] at hht

theorem ListRepr.ht_cons {a : Arena T} {ls : LinkedList} {i : Nat}
    {t : List Nat} {vs : List T} (h : ListRepr a ls (i :: t) vs) :
    ∃ t0, (i :: t).getLast? = some t0 ∧ ls.head_tail = some (i, t0) := by
  obtain ⟨t0, hgl⟩ := Option.isSome_iff_exists.mp
    (List.getLast?_isSome.mpr (List.cons_ne_nil i t))
  refine ⟨t0, hgl, ?_⟩
  have hht := h.ht
  rw [hgl] at hht
  simpa using hht

/-! ### Operation unfoldings -/

theorem push_back_none {ls : LinkedList} {v : T} {a : Arena T}
    (h : ls.head_tail = none) :
    push_back ls v a =
      (⟨some (a.length, a.length)⟩, a ++ [⟨some v, none, none⟩]) := by
  unfold push_back new_halves
  rw [h]

theorem push_back_some {ls : LinkedList} {v : T} {a : Arena T}
    {head tail : Nat} (h : ls.head_tail = some (head, tail)) :
    push_back ls v a =
      (⟨some (head, a.length)⟩,
        setLeft (setRight (a ++ [⟨some v, none, none⟩]) tail (some a.length))
          a.length (some tail)) := by
  unfold push_back new_halves
  rw [h]

/-- `push_back` extends the representation by one fresh node at the end and
touches no node outside the list. -/
theorem push_back_spec {a : Arena T} {ls : LinkedList} {is : List Nat}
    {vs : List T} (h : ListRepr a ls is vs) (v : T) :
    ListRepr (push_back ls v a).2 (push_back ls v a).1 (is ++ [a.length])
      (vs ++ [v])
    ∧ framedOn a (push_back ls v a).2 is
    ∧ (push_back ls v a).2.length = a.length + 1 := by
  cases is with
  | nil =>
    have hn : ls.head_tail = none := by simpa using h.ht
    have hvs : vs = [] := (h.eq_nil hn).2
    subst hvs
    rw [push_back_none hn]
    refine ⟨⟨?_, ?_, ?_, ?_, ?_, ?_, ?_⟩, ⟨?_, ?_⟩, ?_⟩
    · simp
    · simp
    · simp
    · simp [valueOf_alloc_self]
    · simp
    · simp only [List.nil_append, List.head?_cons]
      show leftOf (a ++ [⟨some v, none, none⟩]) a.length = none
      rw [leftOf_alloc_self]
    · simp only [List.nil_append, List.getLast?_singleton]
      show rightOf (a ++ [⟨some v, none, none⟩]) a.length = none
      rw [rightOf_alloc_self]
    · simp
    · intro j hj _
      exact getElem?_alloc_lt a _ hj
    · simp
  | cons i t =>
    obtain ⟨t0, hgl, hht⟩ := h.ht_cons
    have ht0_mem : t0 ∈ i :: t := getLast?_mem hgl
    have ht0_lt : t0 < a.length := h.bounded t0 ht0_mem
    have hi_lt : i < a.length := h.bounded i (List.mem_cons_self i t)
    have ht0_right : rightOf a t0 = none := by
      have := h.last_right
      rw [hgl] at this
      exact this
    rw [push_back_some hht]
    set nd : Node T := ⟨some v, none, none⟩ with hnd
    set a1 : Arena T := a ++ [nd] with ha1
    set a2 : Arena T := setRight a1 t0 (some a.length) with ha2
    set a3 : Arena T := setLeft a2 a.length (some t0) with ha3
    have hlen1 : a1.length = a.length + 1 := by simp [ha1]
    have hlen3 : a3.length = a.length + 1 := by
      rw [ha3, length_setLeft, ha2, length_setRight, hlen1]
    have hval : ∀ j, j < a.length → valueOf a3 j = valueOf a j := by
      intro j hj
      rw [ha3, valueOf_setLeft, ha2, valueOf_setRight, ha1, valueOf_alloc_lt a nd hj]
    have hleft : ∀ j, j < a.length → leftOf a3 j = leftOf a j := by
      intro j hj
      rw [ha3, leftOf_setLeft_ne _ _ (by omega), ha2, leftOf_setRight, ha1,
        leftOf_alloc_lt a nd hj]
    have hright : ∀ j, j < a.length → j ≠ t0 → rightOf a3 j = rightOf a j := by
      intro j hj hjt
      rw [ha3, rightOf_setLeft, ha2, rightOf_setRight_ne _ _ hjt, ha1,
        rightOf_alloc_lt a nd hj]
    have hright_t0 : rightOf a3 t0 = some a.length := by
      rw [ha3, rightOf_setLeft, ha2, rightOf_setRight_self _ _ (by omega)]
    have hleft_n : leftOf a3 a.length = some t0 := by
      rw [ha3, leftOf_setLeft_self _ _ (by rw [ha2, length_setRight]; omega)]
    have hright_n : rightOf a3 a.length = none := by
      rw [ha3, rightOf_setLeft, ha2, rightOf_setRight_ne _ _ (by omega), ha1,
        rightOf_alloc_self]
    have hval_n : valueOf a3 a.length = some v := by
      rw [ha3, valueOf_setLeft, ha2, valueOf_setRight, ha1, valueOf_alloc_self]
    refine ⟨⟨?_, ?_, ?_, ?_, ?_, ?_, ?_⟩, ⟨?_, ?_⟩, ?_⟩
    · have h2 : ((i :: t) ++ [a.length]).getLast? = some a.length :=
        List.getLast?_concat _
      rw [List.cons_append] at h2
      simp [h2]
    · intro j hj
      rw [hlen3]
      rcases List.mem_append.mp hj with hj | hj
      · exact Nat.lt_succ_of_lt (h.bounded j hj)
      · simp only [List.mem_singleton] at hj
        omega
    · rw [List.nodup_append]
      refine ⟨h.nodup, List.nodup_singleton _, ?_⟩
      intro j hj
      have := h.bounded j hj
      simp only [List.mem_singleton]
      omega
    · rw [List.map_append, List.map_append, ← h.values]
      congr 1
      · exact List.map_congr_left fun j hj => hval j (h.bounded j hj)
      · simp [hval_n]
    · rw [List.chain'_append]
      refine ⟨?_, List.chain'_singleton _, ?_⟩
      · refine chain'_congr_mem ?_ h.chain
        intro x hx y hy hr
        obtain ⟨hr1, hr2⟩ := hr
        rcases eq_or_ne x t0 with rfl | hxt
        · rw [ht0_right] at hr1
          simp at hr1
        · exact ⟨(hright x (h.bounded x hx) hxt).trans hr1,
            (hleft y (h.bounded y hy)).trans hr2⟩
      · intro x hx y hy
        rw [hgl] at hx
        simp only [Option.mem_def, Option.some.injEq] at hx
        simp only [List.head?_cons, Option.mem_def, Option.some.injEq] at hy
        subst hx
        subst hy
        exact ⟨hright_t0, hleft_n⟩
    · simp only [List.cons_append, List.head?_cons]
      show leftOf a3 i = none
      rw [hleft i hi_lt]
      have := h.head_left
      simpa using this
    · rw [List.getLast?_concat]
      exact hright_n
    · rw [hlen3]
      omega
    · intro j hj hnotin
      have hjn : j ≠ a.length := by omega
      have hjt0 : j ≠ t0 := fun hh => hnotin (hh ▸ ht0_mem)
      rw [ha3, getElem?_setLeft_ne _ _ hjn, ha2,
        getElem?_setRight_ne _ _ hjt0, ha1, getElem?_alloc_lt a nd hj]
    · exact hlen3

theorem push_front_none {ls : LinkedList} {v : T} {a : Arena T}
    (h : ls.head_tail = none) :
    push_front ls v a =
      (⟨some (a.length, a.length)⟩, a ++ [⟨some v, none, none⟩]) := by
  unfold push_front new_halves
  rw [h]

theorem push_front_some {ls : LinkedList} {v : T} {a : Arena T}
    {head tail : Nat} (h : ls.head_tail = some (head, tail)) :
    push_front ls v a =
      (⟨some (a.length, tail)⟩,
        setRight (setLeft (a ++ [⟨some v, none, none⟩]) head (some a.length))
          a.length (some head)) := by
  unfold push_front new_halves
  rw [h]

/-- `push_front` extends the representation by one fresh node at the front
and touches no node outside the list. -/
theorem push_front_spec {a : Arena T} {ls : LinkedList} {is : List Nat}
    {vs : List T} (h : ListRepr a ls is vs) (v : T) :
    ListRepr (push_front ls v a).2 (push_front ls v a).1 (a.length :: is)
      (v :: vs)
    ∧ framedOn a (push_front ls v a).2 is
    ∧ (push_front ls v a).2.length = a.length + 1 := by
  cases is with
  | nil =>
    have hn : ls.head_tail = none := by simpa using h.ht
    have hvs : vs = [] := (h.eq_nil hn).2
    subst hvs
    rw [push_front_none hn]
    refine ⟨⟨?_, ?_, ?_, ?_, ?_, ?_, ?_⟩, ⟨?_, ?_⟩, ?_⟩
    · simp
    · simp
    · simp
    · simp [valueOf_alloc_self]
    · simp
    · simp only [List.head?_cons]
      show leftOf (a ++ [⟨some v, none, none⟩]) a.length = none
      rw [leftOf_alloc_self]
    · simp only [List.getLast?_singleton]
      show rightOf (a ++ [⟨some v, none, none⟩]) a.length = none
      rw [rightOf_alloc_self]
    · simp
    · intro j hj _
      exact getElem?_alloc_lt a _ hj
    · simp
  | cons i t =>
    obtain ⟨t0, hgl, hht⟩ := h.ht_cons
    have ht0_mem : t0 ∈ i :: t := getLast?_mem hgl
    have ht0_lt : t0 < a.length := h.bounded t0 ht0_mem
    have hi_lt : i < a.length := h.bounded i (List.mem_cons_self i t)
    have hi_left : leftOf a i = none := by simpa using h.head_left
    rw [push_front_some hht]
    set nd : Node T := ⟨some v, none, none⟩ with hnd
    set a1 : Arena T := a ++ [nd] with ha1
    set a2 : Arena T := setLeft a1 i (some a.length) with ha2
    set a3 : Arena T := setRight a2 a.length (some i) with ha3
    have hlen1 : a1.length = a.length + 1 := by simp [ha1]
    have hlen3 : a3.length = a.length + 1 := by
      rw [ha3, length_setRight, ha2, length_setLeft, hlen1]
    have hval : ∀ j, j < a.length → valueOf a3 j = valueOf a j := by
      intro j hj
      rw [ha3, valueOf_setRight, ha2, valueOf_setLeft, ha1,
        valueOf_alloc_lt a nd hj]
    have hright : ∀ j, j < a.length → rightOf a3 j = rightOf a j := by
      intro j hj
      rw [ha3, rightOf_setRight_ne _ _ (by omega), ha2, rightOf_setLeft, ha1,
        rightOf_alloc_lt a nd hj]
    have hleft : ∀ j, j < a.length → j ≠ i → leftOf a3 j = leftOf a j := by
      intro j hj hji
      rw [ha3, leftOf_setRight, ha2, leftOf_setLeft_ne _ _ hji, ha1,
        leftOf_alloc_lt a nd hj]
    have hleft_i : leftOf a3 i = some a.length := by
      rw [ha3, leftOf_setRight, ha2, leftOf_setLeft_self _ _ (by omega)]
    have hright_n : rightOf a3 a.length = some i := by
      rw [ha3, rightOf_setRight_self _ _ (by rw [ha2, length_setLeft]; omega)]
    have hleft_n : leftOf a3 a.length = none := by
      rw [ha3, leftOf_setRight, ha2, leftOf_setLeft_ne _ _ (by omega), ha1,
        leftOf_alloc_self]
    have hval_n : valueOf a3 a.length = some v := by
      rw [ha3, valueOf_setRight, ha2, valueOf_setLeft, ha1, valueOf_alloc_self]
    refine ⟨⟨?_, ?_, ?_, ?_, ?_, ?_, ?_⟩, ⟨?_, ?_⟩, ?_⟩
    · have h2 : (a.length :: i :: t).getLast? = some t0 := by
        rw [List.getLast?_cons_cons]
        exact hgl
      simp [h2]
    · intro j hj
      rw [hlen3]
      rcases List.mem_cons.mp hj with hj | hj
      · omega
      · exact Nat.lt_succ_of_lt (h.bounded j hj)
    · rw [List.nodup_cons]
      refine ⟨?_, h.nodup⟩
      intro hmem
      have := h.bounded _ hmem
      omega
    · have hmain : List.map (valueOf a3) (i :: t) = List.map some vs := by
        rw [← h.values]
        exact List.map_congr_left fun j hj => hval j (h.bounded j hj)
      calc List.map (valueOf a3) (a.length :: i :: t)
          = valueOf a3 a.length :: List.map (valueOf a3) (i :: t) := rfl
        _ = some v :: List.map some vs := by rw [hval_n, hmain]
        _ = List.map some (v :: vs) := rfl
    · rw [List.chain'_cons]
      refine ⟨⟨hright_n, hleft_i⟩, ?_⟩
      refine chain'_congr_mem ?_ h.chain
      intro x hx y hy hr
      obtain ⟨hr1, hr2⟩ := hr
      rcases eq_or_ne y i with rfl | hyi
      · rw [hi_left] at hr2
        simp at hr2
      · exact ⟨(hright x (h.bounded x hx)).trans hr1,
          (hleft y (h.bounded y hy) hyi).trans hr2⟩
    · simp only [List.head?_cons]
      show leftOf a3 a.length = none
      exact hleft_n
    · rw [List.getLast?_cons_cons, hgl]
      show rightOf a3 t0 = none
      rw [hright t0 ht0_lt]
      have := h.last_right
      rw [hgl] at this
      exact this
    · rw [hlen3]
      omega
    · intro j hj hnotin
      have hjn : j ≠ a.length := by omega
      have hji : j ≠ i := fun hh => hnotin (hh ▸ List.mem_cons_self i t)
      rw [ha3, getElem?_setRight_ne _ _ hjn, ha2,
        getElem?_setLeft_ne _ _ hji, ha1, getElem?_alloc_lt a nd hj]
    · exact hlen3

/-- The arena after `node.value.take()`: only the value slot of node `i`
changes. -/
def clearValue (a : Arena T) (i : Nat) : Arena T :=
  modifyNode a i fun nd => { nd with value := none }

theorem length_clearValue (a : Arena T) (i : Nat) :
    (clearValue a i).length = a.length := length_modifyNode ..

theorem leftOf_clearValue (a : Arena T) (i j : Nat) :
    leftOf (clearValue a i) j = leftOf a j := by
  unfold leftOf clearValue
  rcases eq_or_ne j i with rfl | hne
  · rw [getElem?_modifyNode_self]
    cases a[j]? <;> rfl
  · rw [getElem?_modifyNode_ne _ _ hne]

theorem rightOf_clearValue (a : Arena T) (i j : Nat) :
    rightOf (clearValue a i) j = rightOf a j := by
  unfold rightOf clearValue
  rcases eq_or_ne j i with rfl | hne
  · rw [getElem?_modifyNode_self]
    cases a[j]? <;> rfl
  · rw [getElem?_modifyNode_ne _ _ hne]

theorem valueOf_clearValue_ne (a : Arena T) {i j : Nat} (h : j ≠ i) :
    valueOf (clearValue a i) j = valueOf a j := by
  unfold valueOf clearValue
  rw [getElem?_modifyNode_ne _ _ h]

theorem getElem?_clearValue_ne (a : Arena T) {i j : Nat} (h : j ≠ i) :
    (clearValue a i)[j]? = a[j]? := getElem?_modifyNode_ne a _ h

/-- Successful `into_inner` on the two halves of one live node: the join
succeeds, the value comes out and its slot is cleared. -/
theorem into_inner_some {a : Arena T} {i : Nat} {v : T}
    (hv : valueOf a i = some v) :
    into_inner i i a = some (v, clearValue a i) := by
  unfold valueOf at hv
  unfold into_inner clearValue modifyNode
  cases hai : a[i]? with
  | none =>
    rw [hai] at hv
    cases hv
  | some nd =>
    rw [hai] at hv
    simp only [Option.some_bind] at hv
    simp [hv]

/-- `pop_front` on an empty list returns `None` and changes nothing. -/
theorem pop_front_nil {ls : LinkedList} {a : Arena T}
    (h : ls.head_tail = none) : pop_front ls a = some (none, ⟨none⟩, a) := by
  unfold pop_front
  rw [h]

/-- `pop_back` on an empty list returns `None` and changes nothing. -/
theorem pop_back_nil {ls : LinkedList} {a : Arena T}
    (h : ls.head_tail = none) : pop_back ls a = some (none, ⟨none⟩, a) := by
  unfold pop_back
  rw [h]

theorem pop_front_single {ls : LinkedList} {a : Arena T} {i : Nat}
    (h : ls.head_tail = some (i, i)) :
    pop_front ls a =
      (into_inner i i a).map fun p => (some p.1, ⟨none⟩, p.2) := by
  unfold pop_front
  rw [h]
  simp

theorem pop_front_step {ls : LinkedList} {a : Arena T} {i t0 j : Nat}
    (hht : ls.head_tail = some (i, t0)) (hne : i ≠ t0)
    (hrij : rightOf a i = some j)
    (hl : leftOf (setRight a i none) j = some i) :
    pop_front ls a =
      (into_inner i i (setLeft (setRight a i none) j none)).map fun p =>
        (some p.1, ⟨some (j, t0)⟩, p.2) := by
  unfold pop_front
  rw [hht]
  simp [hne, hrij, hl]

/-- `pop_front` on a non-empty list: no panic, the head value comes out and
the representation drops its first node. -/
theorem pop_front_spec {a : Arena T} {ls : LinkedList} {i : Nat}
    {t : List Nat} {v : T} {vt : List T}
    (h : ListRepr a ls (i :: t) (v :: vt)) :
    ∃ ls' a', pop_front ls a = some (some v, ls', a')
      ∧ ListRepr a' ls' t vt
      ∧ framedOn a a' (i :: t)
      ∧ a'.length = a.length := by
  obtain ⟨t0, hgl, hht⟩ := h.ht_cons
  have hi_lt : i < a.length := h.bounded i (List.mem_cons_self i t)
  have hv_i : valueOf a i = some v := by
    have hvv := h.values
    simp only [List.map_cons, List.cons.injEq] at hvv
    exact hvv.1
  cases t with
  | nil =>
    have ht0 : i = t0 := by simpa using hgl
    subst ht0
    have hvt : vt = [] := by
      cases vt with
      | nil => rfl
      | cons w wt =>
        have hlv := h.length_vals
        simp only [List.length_cons, List.length_nil] at hlv
        omega
    subst hvt
    rw [pop_front_single hht, into_inner_some hv_i]
    refine ⟨⟨none⟩, clearValue a i, rfl, ?_, ?_, length_clearValue a i⟩
    · exact ⟨rfl, by simp, by simp, rfl, by simp, rfl, rfl⟩
    · refine ⟨(length_clearValue a i).ge, ?_⟩
      intro x _ hnotin
      have hxi : x ≠ i := by
        intro hh
        exact hnotin (hh ▸ List.mem_singleton_self i)
      exact getElem?_clearValue_ne a hxi
  | cons j t' =>
    have hgl' : (j :: t').getLast? = some t0 := by
      rw [← List.getLast?_cons_cons (a := i)]
      exact hgl
    have ht0_mem : t0 ∈ j :: t' := getLast?_mem hgl'
    have hi_notin : i ∉ j :: t' := (List.nodup_cons.mp h.nodup).1
    have hne : i ≠ t0 := fun e => hi_notin (e ▸ ht0_mem)
    obtain ⟨⟨hrij, hlji⟩, hchain_t⟩ := List.chain'_cons.mp h.chain
    have hj_mem : j ∈ j :: t' := List.mem_cons_self j t'
    have hj_lt : j < a.length := h.bounded j (List.mem_cons_of_mem i hj_mem)
    have hj_ne_i : j ≠ i := fun e => hi_notin (e ▸ hj_mem)
    set a2 : Arena T := setRight a i none with ha2
    have hlen2 : a2.length = a.length := length_setRight ..
    have hl2j : leftOf a2 j = some i := by
      rw [ha2, leftOf_setRight]
      exact hlji
    set a3 : Arena T := setLeft a2 j none with ha3
    have hlen3 : a3.length = a.length := by
      rw [ha3, length_setLeft, hlen2]
    have hv3_i : valueOf a3 i = some v := by
      rw [ha3, valueOf_setLeft, ha2, valueOf_setRight]
      exact hv_i
    set a4 : Arena T := clearValue a3 i with ha4
    have hlen4 : a4.length = a.length := by
      rw [ha4, length_clearValue, hlen3]
    have hval4 : ∀ x, x ≠ i → valueOf a4 x = valueOf a x := by
      intro x hx
      rw [ha4, valueOf_clearValue_ne _ hx, ha3, valueOf_setLeft, ha2,
        valueOf_setRight]
    have hright4 : ∀ x, x ≠ i → rightOf a4 x = rightOf a x := by
      intro x hx
      rw [ha4, rightOf_clearValue, ha3, rightOf_setLeft, ha2,
        rightOf_setRight_ne _ _ hx]
    have hleft4 : ∀ x, x ≠ i → x ≠ j → leftOf a4 x = leftOf a x := by
      intro x hx hxj
      rw [ha4, leftOf_clearValue, ha3, leftOf_setLeft_ne _ _ hxj, ha2,
        leftOf_setRight]
    have hleft4_j : leftOf a4 j = none := by
      rw [ha4, leftOf_clearValue, ha3, leftOf_setLeft_self _ _ (by omega)]
    have hget4 : ∀ x, x ≠ i → x ≠ j → a4[x]? = a[x]? := by
      intro x hx hxj
      rw [ha4, getElem?_clearValue_ne _ hx, ha3, getElem?_setLeft_ne _ _ hxj,
        ha2, getElem?_setRight_ne _ _ hx]
    have hstep : pop_front ls a = some (some v, ⟨some (j, t0)⟩, a4) := by
      rw [pop_front_step hht hne hrij hl2j]
      show (into_inner i i a3).map _ = _
      rw [into_inner_some hv3_i]
      rfl
    refine ⟨⟨some (j, t0)⟩, a4, hstep, ?_, ?_, hlen4⟩
    · refine ⟨by simp [hgl'], ?_, (List.nodup_cons.mp h.nodup).2, ?_, ?_, ?_, ?_⟩
      · intro x hx
        rw [hlen4]
        exact h.bounded x (List.mem_cons_of_mem i hx)
      · have hvv := h.values
        simp only [List.map_cons, List.cons.injEq] at hvv
        rw [← hvv.2]
        refine List.map_congr_left fun x hx => ?_
        exact hval4 x (fun e => hi_notin (e ▸ hx))
      · refine chain'_congr_mem ?_ hchain_t
        intro x hx y hy hr
        obtain ⟨hr1, hr2⟩ := hr
        have hx_ne_i : x ≠ i := fun e => hi_notin (e ▸ hx)
        have hy_ne_i : y ≠ i := fun e => hi_notin (e ▸ hy)
        rcases eq_or_ne y j with rfl | hyj
        · rw [hlji] at hr2
          exact absurd (Option.some_injective _ hr2).symm hx_ne_i
        · exact ⟨(hright4 x hx_ne_i).trans hr1,
            (hleft4 y hy_ne_i hyj).trans hr2⟩
      · simp only [List.head?_cons]
        show leftOf a4 j = none
        exact hleft4_j
      · rw [hgl']
        show rightOf a4 t0 = none
        rw [hright4 t0 (Ne.symm hne)]
        have := h.last_right
        rw [hgl] at this
        exact this
    · refine ⟨hlen4.ge, ?_⟩
      intro x _ hnotin
      have hx_ne_i : x ≠ i := fun e => hnotin (e ▸ List.mem_cons_self i _)
      have hx_ne_j : x ≠ j := fun e => hnotin (by
        rw [e]
        exact List.mem_cons_of_mem i hj_mem)
      exact hget4 x hx_ne_i hx_ne_j

theorem pop_back_single {ls : LinkedList} {a : Arena T} {i : Nat}
    (h : ls.head_tail = some (i, i)) :
    pop_back ls a =
      (into_inner i i a).map fun p => (some p.1, ⟨none⟩, p.2) := by
  unfold pop_back
  rw [h]
  simp

theorem pop_back_step {ls : LinkedList} {a : Arena T} {hd l0 p : Nat}
    (hht : ls.head_tail = some (hd, l0)) (hne : hd ≠ l0)
    (hl : leftOf a l0 = some p)
    (hr : rightOf (setLeft a l0 none) p = some l0) :
    pop_back ls a =
      (into_inner l0 l0 (setRight (setLeft a l0 none) p none)).map fun q =>
        (some q.1, ⟨some (hd, p)⟩, q.2) := by
  unfold pop_back
  rw [hht]
  simp [hne, hl, hr]

/-- `pop_back` on a non-empty list: no panic, the tail value comes out and
the representation drops its last node. -/
theorem pop_back_spec {a : Arena T} {ls : LinkedList} {l0 : Nat}
    {is0 : List Nat} {v : T} {vs0 : List T}
    (h : ListRepr a ls (is0 ++ [l0]) (vs0 ++ [v])) :
    ∃ ls' a', pop_back ls a = some (some v, ls', a')
      ∧ ListRepr a' ls' is0 vs0
      ∧ framedOn a a' (is0 ++ [l0])
      ∧ a'.length = a.length := by
  have hl0_mem : l0 ∈ is0 ++ [l0] := by simp
  have hl0_lt : l0 < a.length := h.bounded l0 hl0_mem
  have hgl : (is0 ++ [l0]).getLast? = some l0 := List.getLast?_concat _
  have hlens : is0.length = vs0.length := by
    have := h.length_vals
    simp only [List.length_append, List.length_cons, List.length_nil] at this
    omega
  have hvsplit : List.map (valueOf a) is0 = List.map some vs0
      ∧ valueOf a l0 = some v := by
    have hvv := h.values
    rw [List.map_append, List.map_append] at hvv
    have := List.append_inj' hvv (by simp)
    refine ⟨this.1, ?_⟩
    have h2 := this.2
    simp only [List.map_cons, List.map_nil, List.cons.injEq] at h2
    exact h2.1
  have hnd := List.nodup_append.mp h.nodup
  have hl0_notin : l0 ∉ is0 := by
    intro hmem
    exact (hnd.2.2 hmem) (List.mem_singleton_self l0)
  cases is0 with
  | nil =>
    have hvs0 : vs0 = [] := by
      cases vs0 with
      | nil => rfl
      | cons w wt => simp at hlens
    subst hvs0
    have hht : ls.head_tail = some (l0, l0) := by
      have := h.ht
      simpa using this
    rw [pop_back_single hht, into_inner_some hvsplit.2]
    refine ⟨⟨none⟩, clearValue a l0, rfl, ?_, ?_, length_clearValue a l0⟩
    · exact ⟨rfl, by simp, by simp, rfl, by simp, rfl, rfl⟩
    · refine ⟨(length_clearValue a l0).ge, ?_⟩
      intro x _ hnotin
      have hx : x ≠ l0 := by
        intro hh
        exact hnotin (by simp [hh])
      exact getElem?_clearValue_ne a hx
  | cons i0 rest =>
    obtain ⟨p, hpgl⟩ := Option.isSome_iff_exists.mp
      (List.getLast?_isSome.mpr (List.cons_ne_nil i0 rest))
    have hp_mem : p ∈ i0 :: rest := getLast?_mem hpgl
    have hp_lt : p < a.length := h.bounded p (List.mem_append_left _ hp_mem)
    have hp_ne_l0 : p ≠ l0 := fun e => hl0_notin (e ▸ hp_mem)
    have hht : ls.head_tail = some (i0, l0) := by
      have := h.ht
      rw [hgl] at this
      simpa using this
    have hi0_ne : i0 ≠ l0 := fun e => hl0_notin (e ▸ List.mem_cons_self i0 rest)
    obtain ⟨hchain0, -, hlink⟩ := List.chain'_append.mp h.chain
    have hpl : chainRel a p l0 := hlink p hpgl l0 rfl
    set a2 : Arena T := setLeft a l0 none with ha2
    have hlen2 : a2.length = a.length := length_setLeft ..
    have hr2p : rightOf a2 p = some l0 := by
      rw [ha2, rightOf_setLeft]
      exact hpl.1
    set a3 : Arena T := setRight a2 p none with ha3
    have hlen3 : a3.length = a.length := by
      rw [ha3, length_setRight, hlen2]
    have hv3 : valueOf a3 l0 = some v := by
      rw [ha3, valueOf_setRight, ha2, valueOf_setLeft]
      exact hvsplit.2
    set a4 : Arena T := clearValue a3 l0 with ha4
    have hlen4 : a4.length = a.length := by
      rw [ha4, length_clearValue, hlen3]
    have hval4 : ∀ x, x ≠ l0 → valueOf a4 x = valueOf a x := by
      intro x hx
      rw [ha4, valueOf_clearValue_ne _ hx, ha3, valueOf_setRight, ha2,
        valueOf_setLeft]
    have hleft4 : ∀ x, x ≠ l0 → leftOf a4 x = leftOf a x := by
      intro x hx
      rw [ha4, leftOf_clearValue, ha3, leftOf_setRight, ha2,
        leftOf_setLeft_ne _ _ hx]
    have hright4 : ∀ x, x ≠ l0 → x ≠ p → rightOf a4 x = rightOf a x := by
      intro x hx hxp
      rw [ha4, rightOf_clearValue, ha3, rightOf_setRight_ne _ _ hxp, ha2,
        rightOf_setLeft]
    have hright4_p : rightOf a4 p = none := by
      rw [ha4, rightOf_clearValue, ha3, rightOf_setRight_self _ _ (by omega)]
    have hget4 : ∀ x, x ≠ l0 → x ≠ p → a4[x]? = a[x]? := by
      intro x hx hxp
      rw [ha4, getElem?_clearValue_ne _ hx, ha3, getElem?_setRight_ne _ _ hxp,
        ha2, getElem?_setLeft_ne _ _ hx]
    have hstep : pop_back ls a = some (some v, ⟨some (i0, p)⟩, a4) := by
      rw [pop_back_step hht hi0_ne hpl.2 hr2p]
      show (into_inner l0 l0 a3).map _ = _
      rw [into_inner_some hv3]
      rfl
    refine ⟨⟨some (i0, p)⟩, a4, hstep, ?_, ?_, hlen4⟩
    · refine ⟨by simp [hpgl], ?_, hnd.1, ?_, ?_, ?_, ?_⟩
      · intro x hx
        rw [hlen4]
        exact h.bounded x (List.mem_append_left _ hx)
      · rw [← hvsplit.1]
        refine List.map_congr_left fun x hx => ?_
        exact hval4 x (fun e => hl0_notin (e ▸ hx))
      · refine chain'_congr_mem ?_ hchain0
        intro x hx y hy hr
        obtain ⟨hr1, hr2⟩ := hr
        have hx_ne : x ≠ l0 := fun e => hl0_notin (e ▸ hx)
        have hy_ne : y ≠ l0 := fun e => hl0_notin (e ▸ hy)
        rcases eq_or_ne x p with rfl | hxp
        · rw [hpl.1] at hr1
          have : y = l0 := (Option.some_injective _ hr1).symm
          exact absurd this hy_ne
        · exact ⟨(hright4 x hx_ne hxp).trans hr1,
            (hleft4 y hy_ne).trans hr2⟩
      · simp only [List.head?_cons]
        show leftOf a4 i0 = none
        rw [hleft4 i0 hi0_ne]
        have := h.head_left
        simpa using this
      · rw [hpgl]
        show rightOf a4 p = none
        exact hright4_p
    · refine ⟨hlen4.ge, ?_⟩
      intro x _ hnotin
      have hx_ne : x ≠ l0 := fun e => hnotin (by simp [e])
      have hx_ne_p : x ≠ p := fun e => hnotin (by
        rw [e]
        exact List.mem_append_left _ hp_mem)
      exact hget4 x hx_ne hx_ne_p

theorem append_other_nil {A B : LinkedList} {a : Arena T}
    (h : B.head_tail = none) : append A B a = some (A, B, a) := by
  unfold append
  rw [h]

theorem append_self_nil {A B : LinkedList} {a : Arena T} {j t02 : Nat}
    (hB : B.head_tail = some (j, t02)) (hA : A.head_tail = none) :
    append A B a = some (⟨some (j, t02)⟩, ⟨none⟩, a) := by
  unfold append
  rw [hB, hA]

theorem append_step {A B : LinkedList} {a : Arena T} {i1 m j t02 : Nat}
    (hA : A.head_tail = some (i1, m)) (hB : B.head_tail = some (j, t02))
    (hr : rightOf (setRight a m (some j)) m = some j) :
    append A B a = some (⟨some (i1, t02)⟩, ⟨none⟩,
      setLeft (setRight a m (some j)) j (some m)) := by
  unfold append
  rw [hB, hA]
  simp [hr]

/-- `append` splices the two chains in place: no panic, `other` is emptied,
the combined chain represents the concatenation. -/
theorem append_spec {a : Arena T} {A B : LinkedList} {is1 is2 : List Nat}
    {vs1 vs2 : List T} (h1 : ListRepr a A is1 vs1) (h2 : ListRepr a B is2 vs2)
    (hd : is1.Disjoint is2) :
    ∃ A' a', append A B a = some (A', ⟨none⟩, a')
      ∧ ListRepr a' A' (is1 ++ is2) (vs1 ++ vs2)
      ∧ framedOn a a' (is1 ++ is2)
      ∧ a'.length = a.length := by
  cases is2 with
  | nil =>
    have hB : B.head_tail = none := by simpa using h2.ht
    have hBeq : B = ⟨none⟩ := by
      cases B
      simp_all
    have hvs2 : vs2 = [] := (h2.eq_nil hB).2
    subst hvs2
    rw [append_other_nil hB, hBeq]
    refine ⟨A, a, rfl, by simpa using h1, ?_, rfl⟩
    exact ⟨le_rfl, fun j hj _ => rfl⟩
  | cons j t2 =>
    obtain ⟨t02, hgl2, hB⟩ := h2.ht_cons
    have hj_lt : j < a.length := h2.bounded j (List.mem_cons_self j t2)
    have ht02_mem : t02 ∈ j :: t2 := getLast?_mem hgl2
    have ht02_lt : t02 < a.length := h2.bounded t02 ht02_mem
    have hjleft : leftOf a j = none := by simpa using h2.head_left
    have ht02right : rightOf a t02 = none := by
      have := h2.last_right
      rw [hgl2] at this
      exact this
    cases is1 with
    | nil =>
      have hA : A.head_tail = none := by simpa using h1.ht
      have hvs1 : vs1 = [] := (h1.eq_nil hA).2
      subst hvs1
      rw [append_self_nil hB hA]
      refine ⟨⟨some (j, t02)⟩, a, rfl, ?_, ⟨le_rfl, fun x hx _ => rfl⟩, rfl⟩
      exact ⟨by simp [hgl2], h2.bounded, h2.nodup, h2.values, h2.chain,
        h2.head_left, h2.last_right⟩
    | cons i1 t1 =>
      obtain ⟨m, hgl1, hA⟩ := h1.ht_cons
      have hm_mem : m ∈ i1 :: t1 := getLast?_mem hgl1
      have hm_lt : m < a.length := h1.bounded m hm_mem
      have hmright : rightOf a m = none := by
        have := h1.last_right
        rw [hgl1] at this
        exact this
      have hm_ne_j : m ≠ j := fun e => (hd hm_mem) (e ▸ List.mem_cons_self j t2)
      set a1 : Arena T := setRight a m (some j) with ha1
      have hlen1 : a1.length = a.length := length_setRight ..
      have hr1m : rightOf a1 m = some j := by
        rw [ha1, rightOf_setRight_self _ _ hm_lt]
      set a2 : Arena T := setLeft a1 j (some m) with ha2
      have hlen2 : a2.length = a.length := by
        rw [ha2, length_setLeft, hlen1]
      have hval2 : ∀ x, valueOf a2 x = valueOf a x := by
        intro x
        rw [ha2, valueOf_setLeft, ha1, valueOf_setRight]
      have hright2 : ∀ x, x ≠ m → rightOf a2 x = rightOf a x := by
        intro x hx
        rw [ha2, rightOf_setLeft, ha1, rightOf_setRight_ne _ _ hx]
      have hleft2 : ∀ x, x ≠ j → leftOf a2 x = leftOf a x := by
        intro x hx
        rw [ha2, leftOf_setLeft_ne _ _ hx, ha1, leftOf_setRight]
      have hright2_m : rightOf a2 m = some j := by
        rw [ha2, rightOf_setLeft]
        exact hr1m
      have hleft2_j : leftOf a2 j = some m := by
        rw [ha2, leftOf_setLeft_self _ _ (by omega)]
      have hget2 : ∀ x, x ≠ m → x ≠ j → a2[x]? = a[x]? := by
        intro x hxm hxj
        rw [ha2, getElem?_setLeft_ne _ _ hxj, ha1, getElem?_setRight_ne _ _ hxm]
      refine ⟨⟨some (i1, t02)⟩, a2, append_step hA hB hr1m, ?_, ?_, hlen2⟩
      · refine ⟨?_, ?_, ?_, ?_, ?_, ?_, ?_⟩
        · have hgl : (i1 :: (t1 ++ j :: t2)).getLast? = some t02 := by
            rw [← List.cons_append, List.getLast?_append_cons]
            exact hgl2
          simp [hgl]
        · intro x hx
          rw [hlen2]
          rcases List.mem_append.mp hx with hx | hx
          · exact h1.bounded x hx
          · exact h2.bounded x hx
        · rw [List.nodup_append]
          exact ⟨h1.nodup, h2.nodup, hd⟩
        · rw [List.map_append, List.map_append, ← h1.values, ← h2.values]
          congr 1
          · exact List.map_congr_left fun x _ => hval2 x
          · exact List.map_congr_left fun x _ => hval2 x
        · rw [List.chain'_append]
          refine ⟨?_, ?_, ?_⟩
          · refine chain'_congr_mem ?_ h1.chain
            intro x hx y hy hr
            obtain ⟨hr1, hr2⟩ := hr
            rcases eq_or_ne x m with rfl | hxm
            · rw [hmright] at hr1
              simp at hr1
            · have hy_ne_j : y ≠ j :=
                fun e => (hd hy) (e ▸ List.mem_cons_self j t2)
              exact ⟨(hright2 x hxm).trans hr1, (hleft2 y hy_ne_j).trans hr2⟩
          · refine chain'_congr_mem ?_ h2.chain
            intro x hx y hy hr
            obtain ⟨hr1, hr2⟩ := hr
            rcases eq_or_ne y j with rfl | hyj
            · rw [hjleft] at hr2
              simp at hr2
            · have hx_ne_m : x ≠ m := fun e => (hd hm_mem) (e ▸ hx)
              exact ⟨(hright2 x hx_ne_m).trans hr1, (hleft2 y hyj).trans hr2⟩
          · intro x hx y hy
            rw [hgl1] at hx
            simp only [Option.mem_def, Option.some.injEq] at hx
            simp only [List.head?_cons, Option.mem_def, Option.some.injEq] at hy
            subst hx
            subst hy
            exact ⟨hright2_m, hleft2_j⟩
        · simp only [List.cons_append, List.head?_cons]
          show leftOf a2 i1 = none
          have hi1_ne_j : i1 ≠ j :=
            fun e => (hd (List.mem_cons_self i1 t1)) (e ▸ List.mem_cons_self j t2)
          rw [hleft2 i1 hi1_ne_j]
          have := h1.head_left
          simpa using this
        · have hgl : ((i1 :: t1) ++ j :: t2).getLast? = some t02 := by
            rw [List.getLast?_append_cons]
            exact hgl2
          rw [hgl]
          show rightOf a2 t02 = none
          have ht02_ne_m : t02 ≠ m := fun e => (hd hm_mem) (e.symm ▸ ht02_mem)
          rw [hright2 t02 ht02_ne_m]
          exact ht02right
      · refine ⟨hlen2.ge, ?_⟩
        intro x _ hnotin
        have hx_ne_m : x ≠ m :=
          fun e => hnotin (List.mem_append_left _ (e ▸ hm_mem))
        have hx_ne_j : x ≠ j :=
          fun e => hnotin (List.mem_append_right _ (e ▸ List.mem_cons_self j t2))
        exact hget2 x hx_ne_m hx_ne_j

/-- The empty list is well formed over any arena. -/
theorem ListRepr.nil (a : Arena T) : ListRepr a ⟨none⟩ [] [] :=
  ⟨rfl, by simp, by simp, rfl, by simp, rfl, rfl⟩

/-- `prepend` is `other.append(self)` followed by the swap: the combined
chain holds `other`'s values then `self`'s, and `other` is emptied. -/
theorem prepend_spec {a : Arena T} {A B : LinkedList} {is1 is2 : List Nat}
    {vs1 vs2 : List T} (h1 : ListRepr a A is1 vs1) (h2 : ListRepr a B is2 vs2)
    (hd : is1.Disjoint is2) :
    ∃ A' a', prepend A B a = some (A', ⟨none⟩, a')
      ∧ ListRepr a' A' (is2 ++ is1) (vs2 ++ vs1)
      ∧ framedOn a a' (is1 ++ is2)
      ∧ a'.length = a.length := by
  obtain ⟨A', a', heq, hrepr, hframe, hlen⟩ := append_spec h2 h1 hd.symm
  refine ⟨A', a', ?_, hrepr, ?_, hlen⟩
  · unfold prepend
    rw [heq]
  · refine ⟨hframe.1, ?_⟩
    intro x hx hnotin
    refine hframe.2 x hx ?_
    intro hmem
    rcases List.mem_append.mp hmem with hm | hm
    · exact hnotin (List.mem_append_right _ hm)
    · exact hnotin (List.mem_append_left _ hm)

theorem split_off_loop_zero (self head : LinkedList) (a : Arena T) :
    split_off_loop self head 0 a = some (some self, head, a) := rfl

/-- The invariant carried around the `for _ in 0..at` loop of `split_off`:
`self` still holds `vs1`, the accumulator `head` holds `vs2`, and the two
chains are disjoint.  Either the loop runs to completion (enough elements)
or `pop_front` comes up empty and the restoration path produces `None` with
all values back in place. -/
theorem split_off_loop_spec :
    ∀ (fuel : Nat) (a : Arena T) (self head : LinkedList)
      (is1 is2 : List Nat) (vs1 vs2 : List T),
      ListRepr a self is1 vs1 → ListRepr a head is2 vs2 →
      is1.Disjoint is2 →
      ∃ res self' a',
        split_off_loop self head fuel a = some (res, self', a')
        ∧ framedOn a a' (is1 ++ is2)
        ∧ ((fuel ≤ vs1.length ∧
             ∃ ret isS isR,
               res = some ret
               ∧ ListRepr a' self' isS (vs2 ++ vs1.take fuel)
               ∧ ListRepr a' ret isR (vs1.drop fuel)
               ∧ isS.Disjoint isR
               ∧ (∀ x ∈ isS, x ∈ is1 ∨ x ∈ is2 ∨ a.length ≤ x)
               ∧ (∀ x ∈ isR, x ∈ is1 ∨ x ∈ is2 ∨ a.length ≤ x))
           ∨ (vs1.length < fuel ∧ res = none
               ∧ ∃ isS, ListRepr a' self' isS (vs2 ++ vs1)
               ∧ (∀ x ∈ isS, x ∈ is1 ∨ x ∈ is2 ∨ a.length ≤ x))) := by
  intro fuel
  induction fuel with
  | zero =>
    intro a self head is1 is2 vs1 vs2 h1 h2 hd
    refine ⟨some self, head, a, split_off_loop_zero .., ⟨le_rfl, fun _ _ _ => rfl⟩, ?_⟩
    left
    refine ⟨Nat.zero_le _, self, is2, is1, rfl, ?_, ?_, hd.symm, ?_, ?_⟩
    · simpa using h2
    · simpa using h1
    · intro x hx
      exact Or.inr (Or.inl hx)
    · intro x hx
      exact Or.inl hx
  | succ k ih =>
    intro a self head is1 is2 vs1 vs2 h1 h2 hd
    cases is1 with
    | nil =>
      have hvs1 : vs1 = [] := by
        have hv := h1.values
        cases vs1 with
        | nil => rfl
        | cons w wt => simp at hv
      subst hvs1
      have hn : self.head_tail = none := by simpa using h1.ht
      have hstep : split_off_loop self head (k + 1) a =
          (prepend ⟨none⟩ head a).map fun r => (none, r.1, r.2.2) := by
        show (match pop_front self a with
          | none => none
          | some (none, s, a) =>
            (prepend s head a).map
              fun (r : LinkedList × LinkedList × Arena T) =>
                (none, r.1, r.2.2)
          | some (some element, s, a) =>
            split_off_loop s (push_back head element a).1 k
              (push_back head element a).2) = _
        rw [pop_front_nil hn]
      obtain ⟨A', a', heq, hrepr, hframe, hlen⟩ :=
        prepend_spec (ListRepr.nil a) h2 (by simp)
      refine ⟨none, A', a', ?_, ?_, ?_⟩
      · rw [hstep, heq]
        rfl
      · exact ⟨hframe.1, fun x hx hn2 => hframe.2 x hx (by simpa using hn2)⟩
      · right
        refine ⟨by simp, rfl, is2 ++ [], ?_, ?_⟩
        · simpa using hrepr
        · intro x hx
          simp only [List.append_nil] at hx
          exact Or.inr (Or.inl hx)
    | cons i t =>
      cases vs1 with
      | nil =>
        have := h1.length_vals
        simp at this
      | cons v vt =>
        obtain ⟨lsP, aP, hpop, hreprP, hframeP, hlenP⟩ := pop_front_spec h1
        have hstep : split_off_loop self head (k + 1) a =
            split_off_loop lsP (push_back head v aP).1 k
              (push_back head v aP).2 := by
          show (match pop_front self a with
            | none => none
            | some (none, s, a) =>
              (prepend s head a).map
                fun (r : LinkedList × LinkedList × Arena T) =>
                  (none, r.1, r.2.2)
            | some (some element, s, a) =>
              split_off_loop s (push_back head element a).1 k
                (push_back head element a).2) = _
          rw [hpop]
        have h2P : ListRepr aP head is2 vs2 := by
          refine h2.frame (by omega) ?_
          intro x hx
          refine hframeP.2 x (h2.bounded x hx) ?_
          intro hmem
          exact (hd hmem) hx
        have hQ := push_back_spec h2P v
        set q := push_back head v aP with hq
        obtain ⟨hreprQ, hframeQ, hlenQ⟩ := hQ
        have hreprPQ : ListRepr q.2 lsP t vt := by
          refine hreprP.frame (by omega) ?_
          intro x hx
          refine hframeQ.2 x (hreprP.bounded x hx) ?_
          intro hmem
          exact (hd (List.mem_cons_of_mem i hx)) hmem
        have hdisj2 : t.Disjoint (is2 ++ [aP.length]) := by
          intro x hx hmem
          rcases List.mem_append.mp hmem with hm | hm
          · exact (hd (List.mem_cons_of_mem i hx)) hm
          · simp only [List.mem_singleton] at hm
            have := hreprP.bounded x hx
            omega
        obtain ⟨res, self', a', heq, hframe', hbranch⟩ :=
          ih q.2 lsP q.1 t (is2 ++ [aP.length]) vt (vs2 ++ [v])
            hreprPQ hreprQ hdisj2
        have hlen_mono : a.length ≤ a'.length := by
          have := hframe'.1
          omega
        have hframe_total : framedOn a a' ((i :: t) ++ is2) := by
          refine ⟨hlen_mono, ?_⟩
          intro x hx hnotin
          have hx1 : x ∉ i :: t := fun hm => hnotin (List.mem_append_left _ hm)
          have hx2 : x ∉ is2 := fun hm => hnotin (List.mem_append_right _ hm)
          have e1 : aP[x]? = a[x]? := hframeP.2 x hx hx1
          have e2 : q.2[x]? = aP[x]? := hframeQ.2 x (by omega) hx2
          have e3 : a'[x]? = q.2[x]? := by
            refine hframe'.2 x (by omega) ?_
            intro hmem
            rcases List.mem_append.mp hmem with hm | hm
            · exact hx1 (List.mem_cons_of_mem i hm)
            · rcases List.mem_append.mp hm with hm | hm
              · exact hx2 hm
              · simp only [List.mem_singleton] at hm
                omega
          rw [e3, e2, e1]
        have hprov : ∀ x, (x ∈ t ∨ x ∈ is2 ++ [aP.length] ∨ q.2.length ≤ x) →
            (x ∈ i :: t ∨ x ∈ is2 ∨ a.length ≤ x) := by
          intro x hx
          rcases hx with hx | hx | hx
          · exact Or.inl (List.mem_cons_of_mem i hx)
          · rcases List.mem_append.mp hx with hm | hm
            · exact Or.inr (Or.inl hm)
            · simp only [List.mem_singleton] at hm
              right
              right
              omega
          · right
            right
            omega
        refine ⟨res, self', a', by rw [hstep, heq], hframe_total, ?_⟩
        rcases hbranch with ⟨hfu, ret, isS, isR, hres, hS, hR, hSR, hpS, hpR⟩ |
            ⟨hfu, hres, isS, hS, hpS⟩
        · left
          refine ⟨by simpa using Nat.succ_le_succ hfu, ret, isS, isR, hres,
            ?_, ?_, hSR, ?_, ?_⟩
          · have : (vs2 ++ [v]) ++ vt.take k = vs2 ++ (v :: vt).take (k + 1) := by
              simp
            rw [← this]
            exact hS
          · simpa using hR
          · intro x hx
            exact hprov x (Or.imp_right (Or.imp_left (fun hm => hm)) (hpS x hx))
          · intro x hx
            exact hprov x (hpR x hx)
        · right
          refine ⟨by simpa using Nat.succ_lt_succ hfu, hres, isS, ?_, ?_⟩
          · have : (vs2 ++ [v]) ++ vt = vs2 ++ (v :: vt) := by simp
            rw [← this]
            exact hS
          · intro x hx
            exact hprov x (hpS x hx)

/-- `split_off(at)` run from the real entry point (empty accumulator):
either `at ≤ len` and the list splits exactly at `at`, or `at > len` and the
call returns `None` with all values restored in order. -/
theorem split_off_spec {a : Arena T} {ls : LinkedList} {is : List Nat}
    {vs : List T} (h : ListRepr a ls is vs) (at_ : Nat) :
    ∃ res self' a',
      split_off ls at_ a = some (res, self', a')
      ∧ framedOn a a' is
      ∧ ((at_ ≤ vs.length ∧ ∃ ret isS isR, res = some ret
            ∧ ListRepr a' self' isS (vs.take at_)
            ∧ ListRepr a' ret isR (vs.drop at_)
            ∧ isS.Disjoint isR
            ∧ (∀ x ∈ isS, x ∈ is ∨ a.length ≤ x)
            ∧ (∀ x ∈ isR, x ∈ is ∨ a.length ≤ x))
        ∨ (vs.length < at_ ∧ res = none
            ∧ ∃ isS, ListRepr a' self' isS vs
            ∧ (∀ x ∈ isS, x ∈ is ∨ a.length ≤ x))) := by
  obtain ⟨res, self', a', heq, hframe, hbranch⟩ :=
    split_off_loop_spec at_ a ls ⟨none⟩ is [] vs [] h (ListRepr.nil a)
      (by simp)
  refine ⟨res, self', a', heq, ?_, ?_⟩
  · exact ⟨hframe.1, fun x hx hn => hframe.2 x hx (by simpa using hn)⟩
  · rcases hbranch with ⟨hfu, ret, isS, isR, hres, hS, hR, hSR, hpS, hpR⟩ |
        ⟨hfu, hres, isS, hS, hpS⟩
    · left
      refine ⟨hfu, ret, isS, isR, hres, by simpa using hS, hR, hSR, ?_, ?_⟩
      · intro x hx
        have := hpS x hx
        simpa using this
      · intro x hx
        have := hpR x hx
        simpa using this
    · right
      refine ⟨hfu, hres, isS, by simpa using hS, ?_⟩
      intro x hx
      have := hpS x hx
      simpa using this

/-! ## The fuzz oracle: arbitrary sequences of mutating calls

One `Op` is one mutating call on one of finitely many lists sharing a
single token and arena (`append`/`prepend` take two distinct lists, as the
Rust borrow checker enforces: `self` and `other` cannot alias).  `step`
interprets one call, threading the shared arena; `none` is a panic. -/

inductive Op (T : Type) where
  | push_front (idx : Nat) (value : T)
  | push_back (idx : Nat) (value : T)
  | pop_front (idx : Nat)
  | pop_back (idx : Nat)
  | append (idx jdx : Nat)
  | prepend (idx jdx : Nat)
  | split_off (idx : Nat) (at_ : Nat)

structure Sys (T : Type) where
  arena : Arena T
  lists : List LinkedList

def step (s : Sys T) : Op T → Option (Sys T)
  | .push_front i v =>
    match s.lists[i]? with
    | none => some s
    | some ls =>
      let p := push_front ls v s.arena
      some ⟨p.2, s.lists.set i p.1⟩
  | .push_back i v =>
    match s.lists[i]? with
    | none => some s
    | some ls =>
      let p := push_back ls v s.arena
      some ⟨p.2, s.lists.set i p.1⟩
  | .pop_front i =>
    match s.lists[i]? with
    | none => some s
    | some ls =>
      (pop_front ls s.arena).map fun r => ⟨r.2.2, s.lists.set i r.2.1⟩
  | .pop_back i =>
    match s.lists[i]? with
    | none => some s
    | some ls =>
      (pop_back ls s.arena).map fun r => ⟨r.2.2, s.lists.set i r.2.1⟩
  | .append i j =>
    if i = j then some s
    else
      match s.lists[i]?, s.lists[j]? with
      | some li, some lj =>
        (append li lj s.arena).map fun r =>
          ⟨r.2.2, (s.lists.set i r.1).set j r.2.1⟩
      | _, _ => some s
  | .prepend i j =>
    if i = j then some s
    else
      match s.lists[i]?, s.lists[j]? with
      | some li, some lj =>
        (prepend li lj s.arena).map fun r =>
          ⟨r.2.2, (s.lists.set i r.1).set j r.2.1⟩
      | _, _ => some s
  | .split_off i n =>
    match s.lists[i]? with
    | none => some s
    | some ls =>
      (split_off ls n s.arena).map fun r =>
        match r.1 with
        | some other => ⟨r.2.2, (s.lists.set i r.2.1) ++ [other]⟩
        | none => ⟨r.2.2, s.lists.set i r.2.1⟩

def run (s : Sys T) : List (Op T) → Option (Sys T)
  | [] => some s
  | op :: ops => (step s op).bind fun s' => run s' ops

/-- `m` empty lists over a fresh arena. -/
def initSys (T : Type) (m : Nat) : Sys T :=
  ⟨[], List.replicate m ⟨none⟩⟩

/-- The global invariant: every list is well formed and any two lists
occupy disjoint sets of nodes. -/
structure SysData (s : Sys T) (iss : List (List Nat))
    (vss : List (List T)) : Prop where
  len_iss : iss.length = s.lists.length
  len_vss : vss.length = s.lists.length
  repr : ∀ (k : Nat) (ls : LinkedList) (isk : List Nat) (vsk : List T),
    s.lists[k]? = some ls → iss[k]? = some isk → vss[k]? = some vsk →
    ListRepr s.arena ls isk vsk
  disj : ∀ (k l : Nat) (isk isl : List Nat), k ≠ l → iss[k]? = some isk →
    iss[l]? = some isl → isk.Disjoint isl

def SysInv (s : Sys T) : Prop := ∃ iss vss, SysData s iss vss

theorem lt_of_getElem?_eq_some {α : Type _} {l : List α} {i : Nat} {x : α}
    (h : l[i]? = some x) : i < l.length := by
  by_contra hn
  rw [List.getElem?_eq_none (Nat.le_of_not_lt hn)] at h
  cases h

theorem getElem?_isSome_of_lt {α : Type _} {l : List α} {i : Nat}
    (h : i < l.length) : ∃ x, l[i]? = some x := by
  rw [List.getElem?_eq_getElem h]
  exact ⟨_, rfl⟩

theorem SysData.at_idx {s : Sys T} {iss : List (List Nat)}
    {vss : List (List T)} (h : SysData s iss vss) {i : Nat}
    {ls : LinkedList} (hls : s.lists[i]? = some ls) :
    ∃ isk vsk, iss[i]? = some isk ∧ vss[i]? = some vsk
      ∧ ListRepr s.arena ls isk vsk := by
  have hi : i < s.lists.length := lt_of_getElem?_eq_some hls
  have hL1 := h.len_iss
  have hL2 := h.len_vss
  obtain ⟨isk, his⟩ := getElem?_isSome_of_lt (l := iss) (i := i) (by omega)
  obtain ⟨vsk, hvs⟩ := getElem?_isSome_of_lt (l := vss) (i := i) (by omega)
  exact ⟨isk, vsk, his, hvs, h.repr i ls isk vsk hls his hvs⟩

theorem SysData.repr_at {s : Sys T} {iss : List (List Nat)}
    {vss : List (List T)} (h : SysData s iss vss) {l : Nat}
    {isl : List Nat} (hl : iss[l]? = some isl) :
    ∃ lsl vsl, s.lists[l]? = some lsl ∧ vss[l]? = some vsl
      ∧ ListRepr s.arena lsl isl vsl := by
  have hlt : l < iss.length := lt_of_getElem?_eq_some hl
  have hL1 := h.len_iss
  have hL2 := h.len_vss
  obtain ⟨lsl, hlsl⟩ := getElem?_isSome_of_lt (l := s.lists) (i := l) (by omega)
  obtain ⟨vsl, hvsl⟩ := getElem?_isSome_of_lt (l := vss) (i := l) (by omega)
  exact ⟨lsl, vsl, hlsl, hvsl, h.repr l lsl isl vsl hlsl hl hvsl⟩

/-- Replacing the list at slot `i` by the result of an operation that only
touched that list's nodes (plus fresh ones) keeps the global invariant. -/
theorem SysData.update1 {s : Sys T} {iss : List (List Nat)}
    {vss : List (List T)} (h : SysData s iss vss) {i : Nat}
    {ls : LinkedList} {isk : List Nat} {vsk : List T}
    (hls : s.lists[i]? = some ls) (his : iss[i]? = some isk)
    (hvs : vss[i]? = some vsk)
    {a' : Arena T} {ls' : LinkedList} {is' : List Nat} {vs' : List T}
    (hrepr : ListRepr a' ls' is' vs')
    (hframe : framedOn s.arena a' isk)
    (hprov : ∀ x ∈ is', x ∈ isk ∨ s.arena.length ≤ x) :
    SysData ⟨a', s.lists.set i ls'⟩ (iss.set i is') (vss.set i vs') := by
  have hi : i < s.lists.length := lt_of_getElem?_eq_some hls
  have hii : i < iss.length := lt_of_getElem?_eq_some his
  have hiv : i < vss.length := lt_of_getElem?_eq_some hvs
  refine ⟨by simp [h.len_iss], by simp [h.len_vss], ?_, ?_⟩
  · intro k lsk iskk vskk hlk hik hvk
    show ListRepr a' lsk iskk vskk
    rcases eq_or_ne k i with rfl | hki
    · rw [List.getElem?_set_eq_of_lt _ hi] at hlk
      rw [List.getElem?_set_eq_of_lt _ hii] at hik
      rw [List.getElem?_set_eq_of_lt _ hiv] at hvk
      rw [← Option.some_injective _ hlk, ← Option.some_injective _ hik,
        ← Option.some_injective _ hvk]
      exact hrepr
    · rw [List.getElem?_set_ne (Ne.symm hki)] at hlk
      rw [List.getElem?_set_ne (Ne.symm hki)] at hik
      rw [List.getElem?_set_ne (Ne.symm hki)] at hvk
      have hold := h.repr k lsk iskk vskk hlk hik hvk
      refine hold.frame hframe.1 ?_
      intro x hx
      refine hframe.2 x (hold.bounded x hx) ?_
      intro hmem
      exact (h.disj k i iskk isk hki hik his hx) hmem
  · intro k l iskk isll hkl hik hil
    rcases eq_or_ne k i with rfl | hki
    · rw [List.getElem?_set_eq_of_lt _ hii] at hik
      rw [List.getElem?_set_ne hkl] at hil
      have hik' := Option.some_injective _ hik
      subst hik'
      obtain ⟨lsl, vsl, _, _, holdl⟩ := h.repr_at hil
      intro x hx hmem
      rcases hprov x hx with hx' | hx'
      · exact (h.disj k l isk isll hkl his hil hx') hmem
      · have := holdl.bounded x hmem
        omega
    · rw [List.getElem?_set_ne (Ne.symm hki)] at hik
      rcases eq_or_ne l i with rfl | hli
      · rw [List.getElem?_set_eq_of_lt _ hii] at hil
        have hil' := Option.some_injective _ hil
        subst hil'
        obtain ⟨lsk2, vsk2, _, _, holdk⟩ := h.repr_at hik
        intro x hx hmem
        rcases hprov x hmem with hx' | hx'
        · exact (h.disj k l iskk isk hki hik his hx) hx'
        · have := holdk.bounded x hx
          omega
      · rw [List.getElem?_set_ne (Ne.symm hli)] at hil
        exact h.disj k l iskk isll hkl hik hil

/-- Appending a freshly produced list (as `split_off` does) whose nodes are
disjoint from every existing list keeps the global invariant. -/
theorem SysData.push {s : Sys T} {iss : List (List Nat)}
    {vss : List (List T)} (h : SysData s iss vss)
    {ret : LinkedList} {isR : List Nat} {vsR : List T}
    (hreprR : ListRepr s.arena ret isR vsR)
    (hdisj : ∀ (l : Nat) (isl : List Nat), iss[l]? = some isl →
      isl.Disjoint isR) :
    SysData ⟨s.arena, s.lists ++ [ret]⟩ (iss ++ [isR]) (vss ++ [vsR]) := by
  have hL1 := h.len_iss
  have hL2 := h.len_vss
  refine ⟨by simp [hL1], by simp [hL2], ?_, ?_⟩
  · intro k lsk iskk vskk hlk hik hvk
    show ListRepr s.arena lsk iskk vskk
    rcases Nat.lt_or_ge k s.lists.length with hk | hk
    · rw [List.getElem?_append_left hk] at hlk
      rw [List.getElem?_append_left (by omega)] at hik
      rw [List.getElem?_append_left (by omega)] at hvk
      exact h.repr k lsk iskk vskk hlk hik hvk
    · rcases Nat.eq_or_lt_of_le hk with hk' | hk'
      · subst hk'
        rw [getElem?_alloc_self] at hlk
        rw [show s.lists.length = iss.length from hL1.symm,
          getElem?_alloc_self] at hik
        rw [show s.lists.length = vss.length from hL2.symm,
          getElem?_alloc_self] at hvk
        rw [← Option.some_injective _ hlk, ← Option.some_injective _ hik,
          ← Option.some_injective _ hvk]
        exact hreprR
      · rw [List.getElem?_eq_none (by simp; omega)] at hlk
        cases hlk
  · intro k l iskk isll hkl hik hil
    rcases Nat.lt_or_ge k iss.length with hk | hk
    · rw [List.getElem?_append_left hk] at hik
      rcases Nat.lt_or_ge l iss.length with hl | hl
      · rw [List.getElem?_append_left hl] at hil
        exact h.disj k l iskk isll hkl hik hil
      · rcases Nat.eq_or_lt_of_le hl with hl' | hl'
        · subst hl'
          rw [getElem?_alloc_self] at hil
          have := Option.some_injective _ hil
          subst this
          exact hdisj k iskk hik
        · rw [List.getElem?_eq_none (by simp; omega)] at hil
          cases hil
    · rcases Nat.eq_or_lt_of_le hk with hk' | hk'
      · subst hk'
        rw [getElem?_alloc_self] at hik
        have := Option.some_injective _ hik
        subst this
        rcases Nat.lt_or_ge l iss.length with hl | hl
        · rw [List.getElem?_append_left hl] at hil
          exact (hdisj l isll hil).symm
        · rcases Nat.eq_or_lt_of_le hl with hl' | hl'
          · omega
          · rw [List.getElem?_eq_none (by simp; omega)] at hil
            cases hil
      · rw [List.getElem?_eq_none (by simp; omega)] at hik
        cases hik

/-- Replacing two distinct slots after a splice (`append`/`prepend`): slot
`i` gets the combined chain, slot `j` becomes empty. -/
theorem SysData.update2 {s : Sys T} {iss : List (List Nat)}
    {vss : List (List T)} (h : SysData s iss vss) {i j : Nat} (hij : i ≠ j)
    {lsi lsj : LinkedList} {isi isj : List Nat} {vsi vsj : List T}
    (hlsi : s.lists[i]? = some lsi) (hisi : iss[i]? = some isi)
    (hvsi : vss[i]? = some vsi)
    (hlsj : s.lists[j]? = some lsj) (hisj : iss[j]? = some isj)
    (hvsj : vss[j]? = some vsj)
    {a' : Arena T} {A' : LinkedList} {is' : List Nat} {vs' : List T}
    (hrepr : ListRepr a' A' is' vs')
    (hframe : framedOn s.arena a' (isi ++ isj))
    (hprov : ∀ x ∈ is', x ∈ isi ∨ x ∈ isj ∨ s.arena.length ≤ x) :
    SysData ⟨a', (s.lists.set i A').set j ⟨none⟩⟩
      ((iss.set i is').set j []) ((vss.set i vs').set j []) := by
  have hi : i < s.lists.length := lt_of_getElem?_eq_some hlsi
  have hii : i < iss.length := lt_of_getElem?_eq_some hisi
  have hiv : i < vss.length := lt_of_getElem?_eq_some hvsi
  have hj : j < s.lists.length := lt_of_getElem?_eq_some hlsj
  have hji : j < iss.length := lt_of_getElem?_eq_some hisj
  have hjv : j < vss.length := lt_of_getElem?_eq_some hvsj
  refine ⟨by simp [h.len_iss], by simp [h.len_vss], ?_, ?_⟩
  · intro k lsk iskk vskk hlk hik hvk
    show ListRepr a' lsk iskk vskk
    rcases eq_or_ne k j with rfl | hkj
    · rw [List.getElem?_set_eq_of_lt _ (by simpa using hj)] at hlk
      rw [List.getElem?_set_eq_of_lt _ (by simpa using hji)] at hik
      rw [List.getElem?_set_eq_of_lt _ (by simpa using hjv)] at hvk
      rw [← Option.some_injective _ hlk, ← Option.some_injective _ hik,
        ← Option.some_injective _ hvk]
      exact ListRepr.nil a'
    · rw [List.getElem?_set_ne (Ne.symm hkj)] at hlk hik hvk
      rcases eq_or_ne k i with rfl | hki
      · rw [List.getElem?_set_eq_of_lt _ hi] at hlk
        rw [List.getElem?_set_eq_of_lt _ hii] at hik
        rw [List.getElem?_set_eq_of_lt _ hiv] at hvk
        rw [← Option.some_injective _ hlk, ← Option.some_injective _ hik,
          ← Option.some_injective _ hvk]
        exact hrepr
      · rw [List.getElem?_set_ne (Ne.symm hki)] at hlk hik hvk
        have hold := h.repr k lsk iskk vskk hlk hik hvk
        refine hold.frame hframe.1 ?_
        intro x hx
        refine hframe.2 x (hold.bounded x hx) ?_
        intro hmem
        rcases List.mem_append.mp hmem with hm | hm
        · exact (h.disj k i iskk isi hki hik hisi hx) hm
        · exact (h.disj k j iskk isj hkj hik hisj hx) hm
  · intro k l iskk isll hkl hik hil
    rcases eq_or_ne k j with rfl | hkj
    · rw [List.getElem?_set_eq_of_lt _ (by simpa using hji)] at hik
      have := Option.some_injective _ hik
      subst this
      intro x hx
      cases hx
    · rw [List.getElem?_set_ne (Ne.symm hkj)] at hik
      rcases eq_or_ne l j with rfl | hlj
      · rw [List.getElem?_set_eq_of_lt _ (by simpa using hji)] at hil
        have := Option.some_injective _ hil
        subst this
        intro x _ hmem
        cases hmem
      · rw [List.getElem?_set_ne (Ne.symm hlj)] at hil
        rcases eq_or_ne k i with rfl | hki
        · rw [List.getElem?_set_eq_of_lt _ hii] at hik
          rw [List.getElem?_set_ne hkl] at hil
          have := Option.some_injective _ hik
          subst this
          obtain ⟨lsl, vsl, _, _, holdl⟩ := h.repr_at hil
          intro x hx hmem
          rcases hprov x hx with hx' | hx' | hx'
          · exact (h.disj k l isi isll hkl hisi hil hx') hmem
          · exact (h.disj j l isj isll (Ne.symm hlj) hisj hil hx') hmem
          · have := holdl.bounded x hmem
            omega
        · rw [List.getElem?_set_ne (Ne.symm hki)] at hik
          rcases eq_or_ne l i with rfl | hli
          · rw [List.getElem?_set_eq_of_lt _ hii] at hil
            have := Option.some_injective _ hil
            subst this
            obtain ⟨lsk2, vsk2, _, _, holdk⟩ := h.repr_at hik
            intro x hx hmem
            rcases hprov x hmem with hx' | hx' | hx'
            · exact (h.disj k l iskk isi hki hik hisi hx) hx'
            · exact (h.disj k j iskk isj hkj hik hisj hx) hx'
            · have := holdk.bounded x hx
              omega
          · rw [List.getElem?_set_ne (Ne.symm hli)] at hil
            exact h.disj k l iskk isll hkl hik hil

/-- Every single mutating call preserves the global invariant and never
panics. -/
theorem step_preserves {s : Sys T} (hinv : SysInv s) (op : Op T) :
    ∃ s', step s op = some s' ∧ SysInv s' := by
  obtain ⟨iss, vss, h⟩ := hinv
  cases op with
  | push_front i v =>
    cases hls : s.lists[i]? with
    | none =>
      refine ⟨s, ?_, iss, vss, h⟩
      simp only [step]
      rw [hls]
    | some ls =>
      obtain ⟨isk, vsk, his, hvs, hrepr⟩ := h.at_idx hls
      obtain ⟨hrepr', hframe, -⟩ := push_front_spec hrepr v
      refine ⟨_, ?_, _, _, h.update1 hls his hvs hrepr' hframe ?_⟩
      · simp only [step]
        rw [hls]
      · intro x hx
        rcases List.mem_cons.mp hx with rfl | hx
        · exact Or.inr le_rfl
        · exact Or.inl hx
  | push_back i v =>
    cases hls : s.lists[i]? with
    | none =>
      refine ⟨s, ?_, iss, vss, h⟩
      simp only [step]
      rw [hls]
    | some ls =>
      obtain ⟨isk, vsk, his, hvs, hrepr⟩ := h.at_idx hls
      obtain ⟨hrepr', hframe, -⟩ := push_back_spec hrepr v
      refine ⟨_, ?_, _, _, h.update1 hls his hvs hrepr' hframe ?_⟩
      · simp only [step]
        rw [hls]
      · intro x hx
        rcases List.mem_append.mp hx with hx | hx
        · exact Or.inl hx
        · simp only [List.mem_singleton] at hx
          omega
  | pop_front i =>
    cases hls : s.lists[i]? with
    | none =>
      refine ⟨s, ?_, iss, vss, h⟩
      simp only [step]
      rw [hls]
    | some ls =>
      obtain ⟨isk, vsk, his, hvs, hrepr⟩ := h.at_idx hls
      cases isk with
      | nil =>
        have hn : ls.head_tail = none := by simpa using hrepr.ht
        refine ⟨_, ?_, _, _, h.update1 hls his hvs (ListRepr.nil s.arena)
          ⟨le_rfl, fun _ _ _ => rfl⟩ (fun x hx => absurd hx (by simp))⟩
        simp only [step, hls]
        rw [pop_front_nil hn]
        rfl
      | cons ix t =>
        cases vsk with
        | nil =>
          have := hrepr.length_vals
          simp at this
        | cons v vt =>
          obtain ⟨ls', aP, hpop, hreprP, hframeP, -⟩ := pop_front_spec hrepr
          refine ⟨_, ?_, _, _, h.update1 hls his hvs hreprP hframeP ?_⟩
          · simp only [step, hls]
            rw [hpop]
            rfl
          · intro x hx
            exact Or.inl (List.mem_cons_of_mem ix hx)
  | pop_back i =>
    cases hls : s.lists[i]? with
    | none =>
      refine ⟨s, ?_, iss, vss, h⟩
      simp only [step]
      rw [hls]
    | some ls =>
      obtain ⟨isk, vsk, his, hvs, hrepr⟩ := h.at_idx hls
      rcases List.eq_nil_or_concat isk with rfl | ⟨is0, l0, rfl⟩
      · have hn : ls.head_tail = none := by simpa using hrepr.ht
        refine ⟨_, ?_, _, _, h.update1 hls his hvs (ListRepr.nil s.arena)
          ⟨le_rfl, fun _ _ _ => rfl⟩ (fun x hx => absurd hx (by simp))⟩
        simp only [step, hls]
        rw [pop_back_nil hn]
        rfl
      · rcases List.eq_nil_or_concat vsk with rfl | ⟨vs0, v, rfl⟩
        · have := hrepr.length_vals
          simp at this
        · simp only [List.concat_eq_append] at hrepr his hvs
          obtain ⟨ls', aP, hpop, hreprP, hframeP, -⟩ := pop_back_spec hrepr
          refine ⟨_, ?_, _, _, h.update1 hls his hvs hreprP hframeP ?_⟩
          · simp only [step, hls]
            rw [hpop]
            rfl
          · intro x hx
            exact Or.inl (List.mem_append_left _ hx)
  | append i j =>
    rcases eq_or_ne i j with rfl | hij
    · refine ⟨s, ?_, iss, vss, h⟩
      simp only [step]
      simp
    · cases hlsi : s.lists[i]? with
      | none =>
        refine ⟨s, ?_, iss, vss, h⟩
        simp only [step, if_neg hij, hlsi]
      | some li =>
        cases hlsj : s.lists[j]? with
        | none =>
          refine ⟨s, ?_, iss, vss, h⟩
          simp only [step, if_neg hij, hlsi, hlsj]
        | some lj =>
          obtain ⟨isi, vsi, hisi, hvsi, hrepri⟩ := h.at_idx hlsi
          obtain ⟨isj, vsj, hisj, hvsj, hreprj⟩ := h.at_idx hlsj
          have hd : isi.Disjoint isj := h.disj i j isi isj hij hisi hisj
          obtain ⟨A', a', heq, hrepr', hframe', -⟩ :=
            append_spec hrepri hreprj hd
          refine ⟨_, ?_, _, _, h.update2 hij hlsi hisi hvsi hlsj hisj hvsj
            hrepr' hframe' ?_⟩
          · simp only [step, if_neg hij, hlsi, hlsj]
            rw [heq]
            rfl
          · intro x hx
            rcases List.mem_append.mp hx with hx | hx
            · exact Or.inl hx
            · exact Or.inr (Or.inl hx)
  | prepend i j =>
    rcases eq_or_ne i j with rfl | hij
    · refine ⟨s, ?_, iss, vss, h⟩
      simp only [step]
      simp
    · cases hlsi : s.lists[i]? with
      | none =>
        refine ⟨s, ?_, iss, vss, h⟩
        simp only [step, if_neg hij, hlsi]
      | some li =>
        cases hlsj : s.lists[j]? with
        | none =>
          refine ⟨s, ?_, iss, vss, h⟩
          simp only [step, if_neg hij, hlsi, hlsj]
        | some lj =>
          obtain ⟨isi, vsi, hisi, hvsi, hrepri⟩ := h.at_idx hlsi
          obtain ⟨isj, vsj, hisj, hvsj, hreprj⟩ := h.at_idx hlsj
          have hd : isi.Disjoint isj := h.disj i j isi isj hij hisi hisj
          obtain ⟨A', a', heq, hrepr', hframe', -⟩ :=
            prepend_spec hrepri hreprj hd
          refine ⟨_, ?_, _, _, h.update2 hij hlsi hisi hvsi hlsj hisj hvsj
            hrepr' hframe' ?_⟩
          · simp only [step, if_neg hij, hlsi, hlsj]
            rw [heq]
            rfl
          · intro x hx
            rcases List.mem_append.mp hx with hx | hx
            · exact Or.inr (Or.inl hx)
            · exact Or.inl hx
  | split_off i n =>
    cases hls : s.lists[i]? with
    | none =>
      refine ⟨s, ?_, iss, vss, h⟩
      simp only [step]
      rw [hls]
    | some ls =>
      obtain ⟨isk, vsk, his, hvs, hrepr⟩ := h.at_idx hls
      obtain ⟨res, self', a', heq, hframe', hbranch⟩ := split_off_spec hrepr n
      rcases hbranch with ⟨hle, ret, isS, isR, hres, hS, hR, hSR, hpS, hpR⟩ |
          ⟨hgt, hres, isS, hS, hpS⟩
      · subst hres
        have hdata1 := h.update1 hls his hvs hS hframe' hpS
        refine ⟨_, ?_, _, _, hdata1.push hR ?_⟩
        · simp only [step, hls]
          rw [heq]
          rfl
        · intro l isl hil
          rcases eq_or_ne l i with rfl | hli
          · rw [List.getElem?_set_eq_of_lt _
              (lt_of_getElem?_eq_some his)] at hil
            have := Option.some_injective _ hil
            subst this
            exact hSR
          · rw [List.getElem?_set_ne (Ne.symm hli)] at hil
            obtain ⟨lsl, vsl, _, _, holdl⟩ := h.repr_at hil
            intro x hx hmem
            rcases hpR x hmem with hx' | hx'
            · exact (h.disj l i isl isk hli hil his hx) hx'
            · have := holdl.bounded x hx
              omega
      · subst hres
        refine ⟨_, ?_, _, _, h.update1 hls his hvs hS hframe' hpS⟩
        simp only [step, hls]
        rw [heq]
        rfl

/-- Any finite call sequence from an invariant state runs to completion
(no `unwrap`/`expect`/`join` ever panics) and lands in an invariant state. -/
theorem run_preserves {s : Sys T} (hinv : SysInv s) (ops : List (Op T)) :
    ∃ s', run s ops = some s' ∧ SysInv s' := by
  induction ops generalizing s with
  | nil => exact ⟨s, rfl, hinv⟩
  | cons op ops ih =>
    obtain ⟨s1, hstep, hinv1⟩ := step_preserves hinv op
    obtain ⟨s', hrun, hinv'⟩ := ih hinv1
    refine ⟨s', ?_, hinv'⟩
    show (step s op).bind _ = _
    rw [hstep]
    exact hrun

/-- The initial system (any number of fresh empty lists) is invariant. -/
theorem initSys_inv (T : Type) (m : Nat) : SysInv (initSys T m) := by
  refine ⟨List.replicate m [], List.replicate m [], by simp [initSys],
    by simp [initSys], ?_, ?_⟩
  · intro k ls isk vsk hlk hik hvk
    have hk : k < m := by
      have := lt_of_getElem?_eq_some hlk
      simpa [initSys] using this
    simp only [initSys, List.getElem?_replicate, if_pos hk] at hlk hik hvk
    rw [← Option.some_injective _ hlk, ← Option.some_injective _ hik,
      ← Option.some_injective _ hvk]
    exact ListRepr.nil _
  · intro k l isk isl _ hik _
    have hk : k < m := by
      have := lt_of_getElem?_eq_some hik
      simpa using this
    simp only [List.getElem?_replicate, if_pos hk] at hik
    rw [← Option.some_injective _ hik]
    intro x hx
    cases hx

/-! ## Mutable cursors (`CursorMut`) and the cursor constructors -/

/-- `CursorMut { inner: GhostCursor }`: the position is the current node. -/
structure CursorMut where
  node : Option Nat
deriving DecidableEq, Repr

/-- `CursorMut::new_front`. -/
def CursorMut.new_front (list : LinkedList) : CursorMut :=
  ⟨list.head_tail.map Prod.fst⟩

/-- `CursorMut::new_back`. -/
def CursorMut.new_back (list : LinkedList) : CursorMut :=
  ⟨list.head_tail.map Prod.snd⟩

/-- `LinkedList::cursor_front` (`src/lib.rs`). -/
def cursor_front (self : LinkedList) : Cursor := Cursor.new_front self

/-- `LinkedList::cursor_back` (`src/lib.rs`). -/
def cursor_back (self : LinkedList) : Cursor := Cursor.new_back self

/-- `LinkedList::cursor_front_mut` (`src/lib.rs` lines 57-62): calls
`CursorMut::new_front`. -/
def cursor_front_mut (self : LinkedList) : CursorMut :=
  CursorMut.new_front self

/-- `LinkedList::cursor_back_mut` (`src/lib.rs` lines 64-69): the body
calls `CursorMut::new_front`, exactly as written in the source. -/
def cursor_back_mut (self : LinkedList) : CursorMut :=
  CursorMut.new_front self

/-! ## Harness for the FIFO claim: a sequence of `push_back` calls
followed by a count of `pop_front` calls collecting the results. -/

def push_back_list (ls : LinkedList) (vs : List T) (a : Arena T) :
    LinkedList × Arena T :=
  match vs with
  | [] => (ls, a)
  | v :: vt =>
    let p := push_back ls v a
    push_back_list p.1 vt p.2

def pop_front_list (ls : LinkedList) (n : Nat) (a : Arena T) :
    Option (List (Option T) × LinkedList × Arena T) :=
  match n with
  | 0 => some ([], ls, a)
  | n + 1 =>
    match pop_front ls a with
    | none => none
    | some (r0, ls, a) =>
      (pop_front_list ls n a).map fun r => (r0 :: r.1, r.2.1, r.2.2)

theorem push_back_list_spec {a : Arena T} {ls : LinkedList} {is : List Nat}
    {vs0 : List T} (h : ListRepr a ls is vs0) (vs : List T) :
    ∃ is1, ListRepr (push_back_list ls vs a).2 (push_back_list ls vs a).1
      is1 (vs0 ++ vs) := by
  induction vs generalizing a ls is vs0 with
  | nil =>
    refine ⟨is, ?_⟩
    simpa using h
  | cons v vt ih =>
    obtain ⟨hrepr', -, -⟩ := push_back_spec h v
    obtain ⟨is1, hfin⟩ := ih hrepr'
    refine ⟨is1, ?_⟩
    have : (vs0 ++ [v]) ++ vt = vs0 ++ v :: vt := by simp
    rw [this] at hfin
    exact hfin

theorem pop_front_list_spec {a : Arena T} {ls : LinkedList} {is : List Nat}
    {vs : List T} (h : ListRepr a ls is vs) :
    ∃ a2, pop_front_list ls vs.length a = some (vs.map some, ⟨none⟩, a2) := by
  induction vs generalizing a ls is with
  | nil =>
    have hn : ls.head_tail = none := by
      have hl : is = [] := by
        cases is with
        | nil => rfl
        | cons i t =>
          have := h.length_vals
          simp at this
      subst hl
      simpa using h.ht
    have : ls = ⟨none⟩ := by
      cases ls
      simp_all
    subst this
    exact ⟨a, rfl⟩
  | cons v vt ih =>
    cases is with
    | nil =>
      have := h.length_vals
      simp at this
    | cons i t =>
      obtain ⟨ls', aP, hpop, hreprP, -, -⟩ := pop_front_spec h
      obtain ⟨a2, hrest⟩ := ih hreprP
      refine ⟨a2, ?_⟩
      show (match pop_front ls a with
        | none => none
        | some (r0, ls, a) =>
          (pop_front_list ls vt.length a).map
            fun (r : List (Option T) × LinkedList × Arena T) =>
              (r0 :: r.1, r.2.1, r.2.2)) = _
      rw [hpop]
      show (pop_front_list ls' vt.length aP).map _ = _
      rw [hrest]
      rfl

/-- Computation rule for `Cursor::move_right` on an on-list cursor. -/
theorem Cursor.move_right_some (a : Arena T) (x : Nat) :
    Cursor.move_right ⟨some x⟩ a =
      match rightOf a x with
      | some n => (⟨some n⟩, true)
      | none => (⟨none⟩, false) := rfl

/-- Computation rule for `Cursor::move_left` on an on-list cursor. -/
theorem Cursor.move_left_some (a : Arena T) (x : Nat) :
    Cursor.move_left ⟨some x⟩ a =
      match leftOf a x with
      | some n => (⟨some n⟩, true)
      | none => (⟨none⟩, false) := rfl

/-- A `Chain'` fact read off at consecutive positions. -/
theorem chain'_getElem? {R : Nat → Nat → Prop} :
    ∀ {l : List Nat}, l.Chain' R → ∀ (k x y : Nat), l[k]? = some x →
      l[k + 1]? = some y → R x y := by
  intro l
  induction l with
  | nil =>
    intro _ k x y hx _
    rw [List.getElem?_nil] at hx
    cases hx
  | cons i t ih =>
    intro hc k x y hx hy
    cases t with
    | nil =>
      rw [List.getElem?_eq_none (by simp)] at hy
      cases hy
    | cons j t' =>
      obtain ⟨hR, hc'⟩ := List.chain'_cons.mp hc
      cases k with
      | zero =>
        simp only [List.getElem?_cons_zero] at hx
        simp only [List.getElem?_cons_succ, List.getElem?_cons_zero] at hy
        rw [← Option.some_injective _ hx, ← Option.some_injective _ hy]
        exact hR
      | succ k' =>
        rw [List.getElem?_cons_succ] at hx hy
        exact ih hc' k' x y hx hy

/-- In a well-formed chain, any node whose `right` link is present is
followed back by that neighbour's `left` link. -/
theorem ListRepr.right_then_left {a : Arena T} {ls : LinkedList}
    {is : List Nat} {vs : List T} (h : ListRepr a ls is vs) :
    ∀ x ∈ is, ∀ y, rightOf a x = some y → leftOf a y = some x := by
  intro x hx y hr
  obtain ⟨k, hk⟩ := List.mem_iff_getElem?.mp hx
  cases hk1 : is[k + 1]? with
  | some z =>
    have hrel := chain'_getElem? h.chain k x z hk hk1
    have hz : z = y := by
      have := hrel.1
      rw [hr] at this
      exact (Option.some_injective _ this).symm
    subst hz
    exact hrel.2
  | none =>
    exfalso
    have hklt : k < is.length := lt_of_getElem?_eq_some hk
    have hk1ge : is.length ≤ k + 1 := by
      by_contra hlt
      obtain ⟨z, hz⟩ := getElem?_isSome_of_lt (l := is) (i := k + 1)
        (Nat.lt_of_not_le hlt)
      rw [hz] at hk1
      cases hk1
    have hkeq : k = is.length - 1 := by omega
    have hlast : is.getLast? = some x := by
      rw [List.getLast?_eq_getElem?, ← hkeq]
      exact hk
    have hlr := h.last_right
    rw [hlast] at hlr
    have : rightOf a x = none := hlr
    rw [hr] at this
    cases this

/-- All slots named by a `map some` equation hold present values. -/
theorem map_eq_map_some_isSome {f : Nat → Option T} :
    ∀ {is : List Nat} {vs : List T}, is.map f = vs.map some →
      ∀ x ∈ is, (f x).isSome = true := by
  intro is
  induction is with
  | nil =>
    intro vs _ x hx
    cases hx
  | cons i t ih =>
    intro vs h x hx
    cases vs with
    | nil => simp at h
    | cons v vt =>
      simp only [List.map_cons, List.cons.injEq] at h
      rcases List.mem_cons.mp hx with rfl | hx
      · rw [h.1]
        rfl
      · exact ih h.2 x hx

/-- Values of on-chain nodes are present. -/
theorem ListRepr.value_isSome {a : Arena T} {ls : LinkedList}
    {is : List Nat} {vs : List T} (h : ListRepr a ls is vs) :
    ∀ x ∈ is, (valueOf a x).isSome = true :=
  map_eq_map_some_isSome h.values

/-- Concrete arena for exercising the theorems: the chain `0 ↔ 1` holding
`[1, 2]`, and the singleton chain `2` holding `[3]`. -/
def witA : Arena Nat :=
  [⟨some 1, none, some 1⟩, ⟨some 2, some 0, none⟩, ⟨some 3, none, none⟩]

theorem witA_repr : ListRepr witA ⟨some (0, 1)⟩ [0, 1] [1, 2] :=
  ⟨by decide, by decide, by decide, by decide,
    List.chain'_cons.mpr ⟨⟨by decide, by decide⟩, List.chain'_singleton _⟩,
    by decide, by decide⟩

theorem witB_repr : ListRepr witA ⟨some (2, 2)⟩ [2] [3] :=
  ⟨by decide, by decide, by decide, by decide, List.chain'_singleton _,
    by decide, by decide⟩

end Lists

/-! ## The `src/arena.rs` variant: only the data needed for the cursor
constructors (`LinkedList { head_tail: Option<(NodeRef, NodeRef)> }`,
`CursorMut::new_front` / `new_back`, and the two public constructors). -/

namespace ArenaList

structure LinkedList where
  head_tail : Option (Nat × Nat)
deriving DecidableEq, Repr

structure CursorMut where
  node : Option Nat
deriving DecidableEq, Repr

def CursorMut.new_front (list : LinkedList) : CursorMut :=
  ⟨list.head_tail.map Prod.fst⟩

def CursorMut.new_back (list : LinkedList) : CursorMut :=
  ⟨list.head_tail.map Prod.snd⟩

/-- `src/arena.rs` lines 49-54. -/
def cursor_front_mut (self : LinkedList) : CursorMut :=
  CursorMut.new_front self

/-- `src/arena.rs` lines 56-61: the body calls `CursorMut::new_front`. -/
def cursor_back_mut (self : LinkedList) : CursorMut :=
  CursorMut.new_front self

end ArenaList

/-! ## The `src/static_rc.rs` variant, same fragment. -/

namespace StaticRcList

structure LinkedList where
  head_tail : Option (Nat × Nat)
deriving DecidableEq, Repr

structure CursorMut where
  node : Option Nat
deriving DecidableEq, Repr

def CursorMut.new_front (list : LinkedList) : CursorMut :=
  ⟨list.head_tail.map Prod.fst⟩

def CursorMut.new_back (list : LinkedList) : CursorMut :=
  ⟨list.head_tail.map Prod.snd⟩

/-- `src/static_rc.rs` lines 45-50. -/
def cursor_front_mut (self : LinkedList) : CursorMut :=
  CursorMut.new_front self

/-- `src/static_rc.rs` lines 52-57: the body calls `CursorMut::new_front`. -/
def cursor_back_mut (self : LinkedList) : CursorMut :=
  CursorMut.new_front self

end StaticRcList

/-! ## The claims -/

namespace Lists

/-- C1: for every list and every split index strictly greater than the
list's length, `split_off(at)` returns the absent result (`None`) and
leaves the list holding exactly its original elements in their original
order: both the forward iterator and the backward traversal are unchanged,
so the restoration by re-prepending the already-popped elements is complete
and order-preserving. -/
theorem C1_split_off_out_of_range {T : Type} {a : Arena T} {ls : LinkedList}
    {is : List Nat} {vs : List T} {at_ : Nat} (h : ListRepr a ls is vs)
    (hat : len ls a < at_) :
    ∃ ls' a', split_off ls at_ a = some (none, ls', a')
      ∧ iterList ls' a' = iterList ls a
      ∧ iterBwdList ls' a' = iterBwdList ls a := by
  have hlen : len ls a = vs.length := h.len_eq
  obtain ⟨res, self', a', heq, -, hbranch⟩ := split_off_spec h at_
  rcases hbranch with ⟨hle, -⟩ | ⟨hgt, hres, isS, hS, -⟩
  · omega
  · subst hres
    refine ⟨self', a', heq, ?_, ?_⟩
    · rw [hS.iterList_eq, h.iterList_eq]
    · rw [hS.iterBwdList_eq, h.iterBwdList_eq]

/-- C1 exercised on the concrete list `[1, 2]` with split index `3`. -/
theorem C1_split_off_out_of_range_witness :
    ∃ ls' a', split_off (⟨some (0, 1)⟩ : LinkedList) 3 witA
        = some (none, ls', a')
      ∧ iterList ls' a' = iterList (⟨some (0, 1)⟩ : LinkedList) witA
      ∧ iterBwdList ls' a' = iterBwdList (⟨some (0, 1)⟩ : LinkedList) witA :=
  C1_split_off_out_of_range witA_repr (by decide)

/-- C2: after `A.append(B)` the forward iteration of the combined list is
`A`'s values followed by `B`'s, backward traversal is the reverse of that,
`B` is empty, and if either operand was empty the result is simply the
other's chain. -/
theorem C2_append_concat {T : Type} {a : Arena T} {A B : LinkedList}
    {is1 is2 : List Nat} {vs1 vs2 : List T}
    (h1 : ListRepr a A is1 vs1) (h2 : ListRepr a B is2 vs2)
    (hd : is1.Disjoint is2) :
    ∃ A' B' a', append A B a = some (A', B', a')
      ∧ iterList A' a' = iterList A a ++ iterList B a
      ∧ iterBwdList A' a' = (iterList A a ++ iterList B a).reverse
      ∧ B'.head_tail = none
      ∧ (A.head_tail = none → A'.head_tail = B.head_tail)
      ∧ (B.head_tail = none → A' = A ∧ a' = a) := by
  obtain ⟨A', a', heq, hrepr, -, -⟩ := append_spec h1 h2 hd
  refine ⟨A', ⟨none⟩, a', heq, ?_, ?_, rfl, ?_, ?_⟩
  · rw [hrepr.iterList_eq, h1.iterList_eq, h2.iterList_eq]
  · rw [hrepr.iterBwdList_eq, h1.iterList_eq, h2.iterList_eq]
  · intro hA
    have his1 : is1 = [] := (h1.eq_nil hA).1
    subst his1
    rw [hrepr.ht, h2.ht]
    simp
  · intro hB
    have hB' : B = ⟨none⟩ := by
      cases B
      simp_all
    subst hB'
    rw [append_other_nil rfl] at heq
    have h3 := Option.some_injective _ heq
    refine ⟨?_, ?_⟩
    · exact (congrArg Prod.fst h3).symm
    · exact (congrArg (fun p => p.2.2) h3).symm

/-- C2 exercised on `A = [1, 2]`, `B = [3]`. -/
theorem C2_append_concat_witness :
    ∃ A' B' a', append (⟨some (0, 1)⟩ : LinkedList) ⟨some (2, 2)⟩ witA
        = some (A', B', a')
      ∧ iterList A' a' = iterList (⟨some (0, 1)⟩ : LinkedList) witA
          ++ iterList (⟨some (2, 2)⟩ : LinkedList) witA
      ∧ iterBwdList A' a' = (iterList (⟨some (0, 1)⟩ : LinkedList) witA
          ++ iterList (⟨some (2, 2)⟩ : LinkedList) witA).reverse
      ∧ B'.head_tail = none
      ∧ ((⟨some (0, 1)⟩ : LinkedList).head_tail = none →
          A'.head_tail = (⟨some (2, 2)⟩ : LinkedList).head_tail)
      ∧ ((⟨some (2, 2)⟩ : LinkedList).head_tail = none →
          A' = ⟨some (0, 1)⟩ ∧ a' = witA) :=
  C2_append_concat witA_repr witB_repr (by
    intro x hx hy
    simp at hx hy
    omega)

/-- C3: for `at ≤ len`, `split_off(at)` returns `Some` list holding
exactly the elements from index `at` onward in order, and leaves exactly
the first `at` elements, in order, in the original list. -/
theorem C3_split_off_in_range {T : Type} {a : Arena T} {ls : LinkedList}
    {is : List Nat} {vs : List T} {at_ : Nat} (h : ListRepr a ls is vs)
    (hat : at_ ≤ len ls a) :
    ∃ ret self' a', split_off ls at_ a = some (some ret, self', a')
      ∧ iterList self' a' = (iterList ls a).take at_
      ∧ iterList ret a' = (iterList ls a).drop at_ := by
  have hlen : len ls a = vs.length := h.len_eq
  obtain ⟨res, self', a', heq, -, hbranch⟩ := split_off_spec h at_
  rcases hbranch with ⟨hle, ret, isS, isR, hres, hS, hR, -, -, -⟩ |
      ⟨hgt, -⟩
  · subst hres
    refine ⟨ret, self', a', heq, ?_, ?_⟩
    · rw [hS.iterList_eq, h.iterList_eq]
    · rw [hR.iterList_eq, h.iterList_eq]
  · omega

/-- C3 exercised on `[1, 2]` with split index `1`. -/
theorem C3_split_off_in_range_witness :
    ∃ ret self' a', split_off (⟨some (0, 1)⟩ : LinkedList) 1 witA
        = some (some ret, self', a')
      ∧ iterList self' a' = (iterList (⟨some (0, 1)⟩ : LinkedList) witA).take 1
      ∧ iterList ret a' = (iterList (⟨some (0, 1)⟩ : LinkedList) witA).drop 1 :=
  C3_split_off_in_range witA_repr (by decide)

/-- C5: pushing any finite sequence of values with `push_back` onto an
initially empty list and then calling `pop_front` the same number of times
returns `Some` of each value in the original insertion order (FIFO), ending
with the empty list. -/
theorem C5_push_back_pop_front_fifo (T : Type) (vs : List T) (a : Arena T) :
    ∃ a2, pop_front_list (push_back_list ⟨none⟩ vs a).1 vs.length
        (push_back_list ⟨none⟩ vs a).2 = some (vs.map some, ⟨none⟩, a2) := by
  obtain ⟨is1, h1⟩ := push_back_list_spec (ListRepr.nil a) vs
  rw [List.nil_append] at h1
  exact pop_front_list_spec h1

/-- C6: `A.prepend(B)` is `B.append(A)` followed by swapping the two list
values (the interpreter returns the components already swapped, so the raw
results coincide); afterwards `A` iterates as `B`'s values then `A`'s and
`B` is empty. -/
theorem C6_prepend_is_swapped_append {T : Type} {a : Arena T}
    {A B : LinkedList} {is1 is2 : List Nat} {vs1 vs2 : List T}
    (h1 : ListRepr a A is1 vs1) (h2 : ListRepr a B is2 vs2)
    (hd : is1.Disjoint is2) :
    ∃ A' B' a', prepend A B a = some (A', B', a')
      ∧ append B A a = some (A', B', a')
      ∧ iterList A' a' = iterList B a ++ iterList A a
      ∧ B'.head_tail = none := by
  obtain ⟨A', a', heq, hrepr, -, -⟩ := prepend_spec h1 h2 hd
  have hdef : prepend A B a = append B A a := by
    unfold prepend
    cases append B A a with
    | none => rfl
    | some r =>
      obtain ⟨x, y, ar⟩ := r
      rfl
  refine ⟨A', ⟨none⟩, a', heq, ?_, ?_, rfl⟩
  · rw [← hdef]
    exact heq
  · rw [hrepr.iterList_eq, h1.iterList_eq, h2.iterList_eq]

/-- C6 exercised on `A = [1, 2]`, `B = [3]`. -/
theorem C6_prepend_is_swapped_append_witness :
    ∃ A' B' a', prepend (⟨some (0, 1)⟩ : LinkedList) ⟨some (2, 2)⟩ witA
        = some (A', B', a')
      ∧ append (⟨some (2, 2)⟩ : LinkedList) ⟨some (0, 1)⟩ witA
        = some (A', B', a')
      ∧ iterList A' a' = iterList (⟨some (2, 2)⟩ : LinkedList) witA
          ++ iterList (⟨some (0, 1)⟩ : LinkedList) witA
      ∧ B'.head_tail = none :=
  C6_prepend_is_swapped_append witA_repr witB_repr (by
    intro x hx hy
    simp at hx hy
    omega)

/-- C7: on the empty list, `pop_front` and `pop_back` each return the
absent result rather than failing, and leave the list (and the arena)
unchanged. -/
theorem C7_pop_on_empty (T : Type) (a : Arena T) :
    pop_front (⟨none⟩ : LinkedList) a = some (none, ⟨none⟩, a)
    ∧ pop_back (⟨none⟩ : LinkedList) a = some (none, ⟨none⟩, a) :=
  ⟨rfl, rfl⟩

/-- C8: a read cursor on an element with a right (left) neighbour advances
to it and reports `true`; on the last (first) element `move_right`
(`move_left`) reports `false` and the cursor goes off-list — `current()`
is then absent — with no wraparound. -/
theorem C8_cursor_move_boundaries {T : Type} {a : Arena T}
    {ls : LinkedList} {is : List Nat} {vs : List T}
    (h : ListRepr a ls is vs) :
    (∀ (k x y : Nat), is[k]? = some x → is[k + 1]? = some y →
       Cursor.move_right ⟨some x⟩ a = (⟨some y⟩, true))
    ∧ (∀ t0, is.getLast? = some t0 →
       Cursor.move_right ⟨some t0⟩ a = (⟨none⟩, false)
       ∧ Cursor.current (⟨none⟩ : Cursor) a = none)
    ∧ (∀ (k x y : Nat), is[k]? = some x → is[k + 1]? = some y →
       Cursor.move_left ⟨some y⟩ a = (⟨some x⟩, true))
    ∧ (∀ h0, is.head? = some h0 →
       Cursor.move_left ⟨some h0⟩ a = (⟨none⟩, false)
       ∧ Cursor.current (⟨none⟩ : Cursor) a = none) := by
  refine ⟨?_, ?_, ?_, ?_⟩
  · intro k x y hx hy
    have hrel := chain'_getElem? h.chain k x y hx hy
    rw [Cursor.move_right_some, hrel.1]
  · intro t0 ht0
    have hlr := h.last_right
    rw [ht0] at hlr
    have : rightOf a t0 = none := hlr
    rw [Cursor.move_right_some, this]
    exact ⟨rfl, rfl⟩
  · intro k x y hx hy
    have hrel := chain'_getElem? h.chain k x y hx hy
    rw [Cursor.move_left_some, hrel.2]
  · intro h0 hh0
    have hhl := h.head_left
    rw [hh0] at hhl
    have : leftOf a h0 = none := hhl
    rw [Cursor.move_left_some, this]
    exact ⟨rfl, rfl⟩

/-- C8 exercised on the two-element chain `[1, 2]`. -/
theorem C8_cursor_move_boundaries_witness :
    Cursor.move_right (⟨some 0⟩ : Cursor) witA = (⟨some 1⟩, true)
    ∧ Cursor.move_right (⟨some 1⟩ : Cursor) witA = (⟨none⟩, false)
    ∧ Cursor.current (⟨none⟩ : Cursor) witA = none
    ∧ Cursor.move_left (⟨some 1⟩ : Cursor) witA = (⟨some 0⟩, true)
    ∧ Cursor.move_left (⟨some 0⟩ : Cursor) witA = (⟨none⟩, false) := by
  have hmain := C8_cursor_move_boundaries witA_repr
  exact ⟨hmain.1 0 0 1 (by decide) (by decide),
    (hmain.2.1 1 (by decide)).1,
    (hmain.2.1 1 (by decide)).2,
    hmain.2.2.1 0 0 1 (by decide) (by decide),
    (hmain.2.2.2 0 (by decide)).1⟩

/-- C9: after any finite sequence of
`push_front`/`push_back`/`pop_front`/`pop_back`/`append`/`prepend`/
`split_off` calls on lists sharing one token, every resulting list is a
well-formed doubly-linked chain: the nodes reached by following `next`
from the head are as many as those reached by following `prev` from the
tail, both counts equal `len()`, and following `next` then `prev` from any
reachable node returns to the starting node. -/
theorem C9_fuzz_oracle_chain_invariant (T : Type) (m : Nat)
    (ops : List (Op T)) :
    ∃ s', run (initSys T m) ops = some s'
      ∧ ∀ ls ∈ s'.lists,
          (fwdNodes ls s'.arena).length = len ls s'.arena
          ∧ (bwdNodes ls s'.arena).length = len ls s'.arena
          ∧ (∀ x ∈ fwdNodes ls s'.arena, ∀ y,
              rightOf s'.arena x = some y → leftOf s'.arena y = some x) := by
  obtain ⟨s', hrun, iss, vss, hd⟩ := run_preserves (initSys_inv T m) ops
  refine ⟨s', hrun, ?_⟩
  intro ls hmem
  obtain ⟨k, hk⟩ := List.mem_iff_getElem?.mp hmem
  obtain ⟨isk, vsk, -, -, hrepr⟩ := hd.at_idx hk
  have hfwd : fwdNodes ls s'.arena = isk := hrepr.fwdNodes_eq
  have hbwd : bwdNodes ls s'.arena = isk.reverse := hrepr.bwdNodes_eq
  have hlen : len ls s'.arena = vsk.length := hrepr.len_eq
  refine ⟨?_, ?_, ?_⟩
  · rw [hfwd, hlen, hrepr.length_vals]
  · rw [hbwd, hlen, List.length_reverse, hrepr.length_vals]
  · intro x hx y hr
    rw [hfwd] at hx
    exact hrepr.right_then_left x hx y hr

/-- C10: in any state reachable by a finite call sequence, every node
reachable from the head of any list has its value slot present, so
`Cursor::current` at an on-list position never observes an absent value —
and the whole run returned `some`, i.e. the `unwrap` inside `into_inner`
(and every other `unwrap`/`expect`/`join`) never failed. -/
theorem C10_reachable_values_present (T : Type) (m : Nat)
    (ops : List (Op T)) :
    ∃ s', run (initSys T m) ops = some s'
      ∧ ∀ ls ∈ s'.lists, ∀ x ∈ fwdNodes ls s'.arena,
          (valueOf s'.arena x).isSome = true
          ∧ (Cursor.current (⟨some x⟩ : Cursor) s'.arena).isSome = true := by
  obtain ⟨s', hrun, iss, vss, hd⟩ := run_preserves (initSys_inv T m) ops
  refine ⟨s', hrun, ?_⟩
  intro ls hmem x hx
  obtain ⟨k, hk⟩ := List.mem_iff_getElem?.mp hmem
  obtain ⟨isk, vsk, -, -, hrepr⟩ := hd.at_idx hk
  rw [hrepr.fwdNodes_eq] at hx
  have hv := hrepr.value_isSome x hx
  refine ⟨hv, ?_⟩
  show (valueOf s'.arena x).isSome = true
  exact hv

end Lists

/-- C4: in all three list variants (`src/lib.rs`, `src/arena.rs`,
`src/static_rc.rs`), `cursor_back_mut` returns a mutable cursor positioned
at the same node as `cursor_front_mut` — the list's first node, taken from
the head slot of `head_tail` — not at the tail as `CursorMut::new_back`
would give. -/
theorem C4_cursor_back_mut_starts_at_front (ls1 : Lists.LinkedList)
    (ls2 : ArenaList.LinkedList) (ls3 : StaticRcList.LinkedList) :
    (Lists.cursor_back_mut ls1 = Lists.cursor_front_mut ls1
      ∧ (Lists.cursor_back_mut ls1).node = ls1.head_tail.map Prod.fst)
    ∧ (ArenaList.cursor_back_mut ls2 = ArenaList.cursor_front_mut ls2
      ∧ (ArenaList.cursor_back_mut ls2).node = ls2.head_tail.map Prod.fst)
    ∧ (StaticRcList.cursor_back_mut ls3 = StaticRcList.cursor_front_mut ls3
      ∧ (StaticRcList.cursor_back_mut ls3).node
          = ls3.head_tail.map Prod.fst) :=
  ⟨⟨rfl, rfl⟩, ⟨rfl, rfl⟩, ⟨rfl, rfl⟩⟩
